import Mathlib

/-!
# Verification of the markdown inventory parser

A shallow embedding of `src/inventory_system/parser.py`
(`extract_metadata`, `parse_inventory`, `add_container_id_prefixes`,
`validate_inventory`) together with proofs about the embedded code.

Modelling conventions:
* Python strings are modelled as Lean `String`s; all primitive operations
  (slicing, `strip`, `startswith`, `split`, `replace`) are re-implemented
  over `String.data` so that every definition reduces in the kernel.
* Python's regex character classes are modelled at ASCII granularity
  (`\w` = alphanumeric or underscore, `\s` = the six ASCII whitespace
  characters, `\d` = ASCII digits, `[A-Z]`/`[A-Za-z]` = ASCII letters),
  matching the documents the tool processes.
* Python dictionaries are modelled as insertion-ordered association lists
  whose insert operation overwrites the value in place, like `dict`.
* The two loops whose Python form advances an index (`re.finditer` scanning
  and the main line loop of `parse_inventory`) are embedded as
  fuel-indexed structural recursions; the fuel is instantiated with the
  input length, and sufficiency of that fuel is proved (claim C8).
-/

namespace Inventory

/-- ASCII model of Python's `\s` class / `str.strip()` character set. -/
def pySpace (c : Char) : Bool :=
  c == ' ' || c == '\t' || c == '\n' || c == '\r' || c == '\x0b' || c == '\x0c'

/-- ASCII model of Python's `\w` class. -/
def wordChar (c : Char) : Bool :=
  c.isAlphanum || c == '_'

/-- Characters allowed in a metadata value: the regex class `[^)\s]`. -/
def valChar (c : Char) : Bool :=
  !(c == ')') && !(pySpace c)

/-- `str.strip()` on a character list. -/
def pyStripL (cs : List Char) : List Char :=
  ((cs.dropWhile pySpace).reverse.dropWhile pySpace).reverse

/-- `str.strip()`. -/
def pyStrip (s : String) : String :=
  String.mk (pyStripL s.data)

/-- `str.startswith(pre)`. -/
def pyStartsWith (s pre : String) : Bool :=
  pre.data.isPrefixOf s.data

/-- `s[n:]` (Python slicing is by code points). -/
def strDrop (s : String) (n : Nat) : String :=
  String.mk (s.data.drop n)

/-- `s[:n]`. -/
def strTake (s : String) (n : Nat) : String :=
  String.mk (s.data.take n)

/-- `sub in s` (Python substring membership). -/
def hasInfix (s sub : String) : Bool :=
  s.data.tails.any (fun t => sub.data.isPrefixOf t)

/-- Replace every maximal run of whitespace by the single character `rep`;
this is `re.sub(r'\s+', rep, ·)`.  The boolean records whether the previous
character was part of a whitespace run. -/
def squeezeAux (rep : Char) : Bool → List Char → List Char
  | _, [] => []
  | prev, c :: cs =>
    if pySpace c then
      if prev then squeezeAux rep true cs else rep :: squeezeAux rep true cs
    else c :: squeezeAux rep false cs

def squeeze (rep : Char) (cs : List Char) : List Char :=
  squeezeAux rep false cs

/-- `content.split('\n')` (also used for `','`-splitting of tag values). -/
def splitOnChar (sep : Char) : List Char → List (List Char)
  | [] => [[]]
  | c :: cs =>
    match splitOnChar sep cs with
    | [] => [[]]
    | h :: t => if c == sep then [] :: h :: t else (c :: h) :: t

def splitLines (content : String) : List String :=
  (splitOnChar '\n' content.data).map String.mk

/-- `'\n'.join(lines)`. -/
def joinNL (lines : List String) : String :=
  String.mk (List.intercalate ['\n'] (lines.map String.data))

/-- Decimal digit character. -/
def digitChar (d : Nat) : Char := Char.ofNat (48 + d)

/-- Fuel-indexed decimal rendering of a natural number (model of `str(n)`). -/
def natToCharsF : Nat → Nat → List Char
  | 0, n => [digitChar (n % 10)]
  | fuel + 1, n =>
    if n < 10 then [digitChar n]
    else natToCharsF fuel (n / 10) ++ [digitChar (n % 10)]

def natToChars (n : Nat) : List Char := natToCharsF n n

/-- Model of Python `str(n)` for a natural number. -/
def natToStr (n : Nat) : String := String.mk (natToChars n)

/-- A metadata value: a plain string, or (for the key `tags`) a list. -/
inductive MVal where
  | s (v : String)
  | ls (vs : List String)
deriving DecidableEq

/-- Insertion-ordered string-keyed dictionary (model of a Python `dict`). -/
abbrev Meta := List (String × MVal)

/-- `d[k] = v`: overwrite in place if present, else append. -/
def dinsert (k : String) (v : MVal) : Meta → Meta
  | [] => [(k, v)]
  | (k', v') :: rest =>
    if k' = k then (k, v) :: rest else (k', v') :: dinsert k v rest

/-- `d.get(k)`. -/
def dget (k : String) : Meta → Option MVal
  | [] => none
  | (k', v') :: rest => if k' = k then some v' else dget k rest

/-- `d.get(k)` when the caller expects a string value (every key except
`tags` only ever stores a string). -/
def getS (k : String) (m : Meta) : Option String :=
  match dget k m with
  | some (MVal.s v) => some v
  | _ => none

/-- Python truthiness of an optional string (`None` and `''` are falsy). -/
def truthy : Option String → Bool
  | some v => !(v = "")
  | none => false

/-- Generic association list used for `inferred_parents`, `heading_stack`,
`container_ids` and `duplicate_map`; insert overwrites in place. -/
def alInsert {α β : Type} [DecidableEq α] (k : α) (v : β) :
    List (α × β) → List (α × β)
  | [] => [(k, v)]
  | (k', v') :: rest =>
    if k' = k then (k, v) :: rest else (k', v') :: alInsert k v rest

def alLookup {α β : Type} [DecidableEq α] (k : α) :
    List (α × β) → Option β
  | [] => none
  | (k', v') :: rest => if k' = k then some v' else alLookup k rest

/-- `defaultdict(list)`-style `d[k].append(v)`. -/
def alAppend {α β : Type} [DecidableEq α] (k : α) (v : β) :
    List (α × List β) → List (α × List β)
  | [] => [(k, [v])]
  | (k', vs) :: rest =>
    if k' = k then (k, vs ++ [v]) :: rest else (k', vs) :: alAppend k v rest

/-- `l.index(a)` (first occurrence). -/
def idxOf {α : Type} [DecidableEq α] (a : α) : List α → Nat
  | [] => 0
  | b :: rest => if b = a then 0 else idxOf a rest + 1

/-!
## `extract_metadata`

Model of the regex scan `re.finditer(r'\(?(\w+):([^)\s]+)\)?', text)`.
A match attempt at the current position: an optional `(` (which, by the
backtracking analysis of the pattern, can only be consumed when a word
character follows), a maximal nonempty run of word characters, a literal
`:`, a maximal nonempty run of `[^)\s]` characters, and an optional `)`.
-/

/-- Attempt a match of the pattern at the head of `cs`; on success return
the two capture groups and the characters after the match. -/
def matchAt (cs : List Char) : Option (List Char × List Char × List Char) :=
  let cs1 := if cs.head? = some '(' then cs.tail else cs
  let w := cs1.takeWhile wordChar
  let cs2 := cs1.dropWhile wordChar
  if w.isEmpty then none
  else if cs2.head? = some ':' then
    let cs3 := cs2.tail
    let v := cs3.takeWhile valChar
    let cs4 := cs3.dropWhile valChar
    if v.isEmpty then none
    else some (w, v, if cs4.head? = some ')' then cs4.tail else cs4)
  else none

/-- Left-to-right non-overlapping scan (model of `re.finditer`): return the
list of `(key, value)` capture pairs in order, together with the input with
every matched span deleted (the source deletes the spans in reverse order,
which amounts to the same thing). -/
def scanMetaF : Nat → List Char → List (List Char × List Char) × List Char
  | _, [] => ([], [])
  | 0, cs => ([], cs)
  | fuel + 1, c :: cs =>
    match matchAt (c :: cs) with
    | some (k, v, rest) =>
      let r := scanMetaF fuel rest
      ((k, v) :: r.1, r.2)
    | none =>
      let r := scanMetaF fuel cs
      (r.1, c :: r.2)

def scanMeta (cs : List Char) : List (List Char × List Char) × List Char :=
  scanMetaF cs.length cs

/-- `value.split(',')`, `strip` each piece, keep the non-empty ones. -/
def splitCommaStrip (v : List Char) : List String :=
  (((splitOnChar ',' v).map pyStripL).filter (fun p => !p.isEmpty)).map String.mk

/-- One `(key, value)` pair of the scan, folded into `(metadata, tags)`
exactly as the Python loop body does. -/
def metaStep (acc : Meta × List String) (kv : List Char × List Char) :
    Meta × List String :=
  let key := String.mk (kv.1.map Char.toLower)
  let value := pyStrip (String.mk kv.2)
  if key = "tag" then (acc.1, acc.2 ++ splitCommaStrip value.data)
  else (dinsert key (MVal.s value) acc.1, acc.2)

/-- `extract_metadata`: returns `(metadata, name)`. -/
def extract_metadata (text : String) : Meta × String :=
  let r := scanMeta text.data
  let acc := r.1.foldl metaStep ([], [])
  let md := if acc.2.isEmpty then acc.1 else dinsert "tags" (MVal.ls acc.2) acc.1
  (md, pyStrip (String.mk (squeeze ' ' r.2)))

/-!
## Data model of `parse_inventory`
-/

/-- One image reference, as produced by the external image-discovery
collaborator (`discover_images` returns dicts with these three keys). -/
structure Image where
  alt : String
  thumb : String
  full : String
deriving DecidableEq

/-- An item dict.  The Python code builds item dicts with different key
sets in different branches, so the `id`/`parent`/`indented` keys are
wrapped in an outer `Option`: `none` means the key is absent from the
dict, `some v` means the key is present and holds `v` (itself optional,
because the source stores `metadata.get(...)`, which may be `None`). -/
structure Item where
  idK : Option (Option String)
  parentK : Option (Option String)
  name : String
  raw_text : String
  metadata : Meta
  indentedK : Option Bool
deriving DecidableEq

/-- A container dict (`id, parent, heading, description, items, images,
photos_link, metadata`). -/
structure Container where
  id : String
  parent : Option String
  heading : String
  description : String
  items : List Item
  images : List Image
  photos_link : String
  metadata : Meta
deriving DecidableEq

/-- The result dict of `parse_inventory`. -/
structure Doc where
  intro : String
  numbering_scheme : String
  containers : List Container
deriving DecidableEq

/-- The mutable state of the main parsing loop.  `levels` is pure
instrumentation (the heading level that created each container, kept in
lockstep with `containers`); it feeds no computation and exists only so
that theorems can quantify over the level a container came from. -/
structure PSt where
  intro : String
  numbering : String
  containers : List Container
  levels : List Nat
  table : List (String × String)
  topId : Option String
  stack : List (Nat × String)
deriving DecidableEq

def initSt : PSt :=
  { intro := "", numbering := "", containers := [], levels := [],
    table := [], topId := none, stack := [] }

/-- `description` accumulation for a body line. -/
def descAppend (c : Container) (s : String) : Container :=
  if c.description = "" then { c with description := s }
  else { c with description := c.description ++ " " ++ s }

/-- Body line of a top-level (`#`) container: lines 257-288 / 333-364 of
the source.  Items get no `id`/`parent` keys and `indented = False`; an
item with an explicit id distinct from the container id is recorded in
`inferred_parents`. -/
def h1Line (cid : String) (acc : Container × List (String × String))
    (l : String) : Container × List (String × String) :=
  if pyStartsWith l "![" then acc
  else if pyStartsWith l "* " then
    let item_text := pyStrip (strDrop l 2)
    let p := extract_metadata item_text
    let tbl :=
      if truthy (getS "id" p.1) then
        let iid := (getS "id" p.1).getD ""
        if !(cid = "") && !(iid = cid) then alInsert iid cid acc.2 else acc.2
      else acc.2
    ({ acc.1 with items := acc.1.items ++
        [{ idK := none, parentK := none, name := p.2, raw_text := item_text,
           metadata := p.1, indentedK := some false }] }, tbl)
  else if !(pyStrip l = "") && !(pyStartsWith l "#") then
    (descAppend acc.1 (pyStrip l), acc.2)
  else acc

/-- Body line of a `##`-`######` container: lines 438-481 of the source.
Unindented items get `id`/`parent` keys and no `indented` key; an item
with an explicit id is recorded in `inferred_parents` (with no check
against the container's own id).  Indented items (`  * `) additionally
get `indented = True` and are not recorded. -/
def subLine (cid : String) (acc : Container × List (String × String))
    (l : String) : Container × List (String × String) :=
  if pyStartsWith l "![" then acc
  else if pyStartsWith l "* " then
    let item_text := pyStrip (strDrop l 2)
    let p := extract_metadata item_text
    let tbl :=
      if truthy (getS "id" p.1) && !(cid = "") then
        alInsert ((getS "id" p.1).getD "") cid acc.2
      else acc.2
    ({ acc.1 with items := acc.1.items ++
        [{ idK := some (getS "id" p.1), parentK := some (getS "parent" p.1),
           name := p.2, raw_text := item_text, metadata := p.1,
           indentedK := none }] }, tbl)
  else if pyStartsWith l "  * " then
    let item_text := pyStrip (strDrop l 4)
    let p := extract_metadata item_text
    ({ acc.1 with items := acc.1.items ++
        [{ idK := some (getS "id" p.1), parentK := some (getS "parent" p.1),
           name := p.2, raw_text := item_text, metadata := p.1,
           indentedK := some true }] }, acc.2)
  else if !(pyStrip l = "") && !(pyStartsWith l "#") then
    (descAppend acc.1 (pyStrip l), acc.2)
  else acc

/-- A freshly created container. -/
def mkContainer (cid : String) (parent : Option String) (name : String)
    (m : Meta) : Container :=
  { id := cid, parent := parent, heading := name, description := "",
    items := [], images := [], photos_link := "", metadata := m }

/-- Number of leading `#` characters
(`len(line) - len(line.lstrip('#'))`). -/
def countHash (s : String) : Nat :=
  (s.data.takeWhile (· == '#')).length

/-- The heading text of a `##`+ heading line (`line[level:].strip()`). -/
def headingOf (l : String) : String :=
  pyStrip (strDrop l (countHash l))

/-- `re.sub(r'[^\w\s-]', '', s)` followed by
`re.sub(r'\s+', '-', ·.strip())`. -/
def sanitize (s : String) : String :=
  String.mk (squeeze '-'
    (pyStripL (s.data.filter (fun c => wordChar c || pySpace c || c == '-'))))

/-- Container-id resolution shared by the generic-`#` and `##`+ branches:
explicit `ID:` tag if truthy, else the sanitized heading truncated to 50
characters, else `Container-{level}`. -/
def subId (p : Meta × String) (heading : String) (lvl : Nat) : String :=
  if truthy (getS "id" p.1) then (getS "id" p.1).getD ""
  else
    let clean := if p.2 = "" then heading else p.2
    let s := sanitize clean
    if s = "" then "Container-" ++ natToStr lvl else strTake s 50

/-- The id a `##`+ heading line resolves to. -/
def resolvedId (l : String) : String :=
  subId (extract_metadata (headingOf l)) (headingOf l) (countHash l)

/-- Parent resolution for a `##`+ heading (lines 404-418 of the source):
explicit `parent:` tag, else the `inferred_parents` side table, else the
heading stack one level up (recorded into the side table), else, directly
under level 1, the current top-level anchor (also recorded).  Returns the
parent and the possibly-updated side table. -/
def resolveParent (cid : String) (lvl : Nat) (m : Meta) (st : PSt) :
    Option String × List (String × String) :=
  if truthy (getS "parent" m) then (getS "parent" m, st.table)
  else
    match alLookup cid st.table with
    | some q => (some q, st.table)
    | none =>
      match alLookup (lvl - 1) st.stack with
      | some sp => (some sp, alInsert cid sp st.table)
      | none =>
        match st.topId with
        | some t =>
          if lvl - 1 = 1 && !(t = "") && !(cid = t) then
            (some t, alInsert cid t st.table)
          else (none, st.table)
        | none => (none, st.table)

/-- Take the body of a container: all lines up to the next heading. -/
def takeBody (rest : List String) : List String :=
  rest.takeWhile (fun x => !(pyStartsWith x "#"))

def dropBody (rest : List String) : List String :=
  rest.dropWhile (fun x => !(pyStartsWith x "#"))

/-- Capture of a reserved `# Intro` / `# Nummereringsregime` section:
all lines up to the next `# ` heading, joined and stripped. -/
def sectionText (rest : List String) : String :=
  pyStrip (joinNL (rest.takeWhile (fun x => !(pyStartsWith x "# "))))

def sectionRest (rest : List String) : List String :=
  rest.dropWhile (fun x => !(pyStartsWith x "# "))

/-- Branch for a top-level container heading (either form), once its id
`cid` has been resolved: collect the body with the H1 item collector,
append the container at level 1, reset the heading stack to `{1: cid}`
and make `cid` the top-level anchor. -/
def h1Step (cid : String) (name : String) (m : Meta)
    (rest : List String) (st : PSt) : List String × PSt :=
  let cb := (takeBody rest).foldl (h1Line cid)
    (mkContainer cid none name m, st.table)
  (dropBody rest,
    { st with containers := st.containers ++ [cb.1],
              levels := st.levels ++ [1], table := cb.2,
              topId := some cid, stack := [(1, cid)] })

/-- Branch for a `##`-`######` container heading. -/
def subStep (l : String) (rest : List String) (st : PSt) :
    List String × PSt :=
  let lvl := countHash l
  let p := extract_metadata (headingOf l)
  let cid := resolvedId l
  let rp := resolveParent cid lvl p.1 st
  let stack' := (st.stack.filter (fun kv => kv.1 < lvl)) ++ [(lvl, cid)]
  let cb := (takeBody rest).foldl (subLine cid)
    (mkContainer cid rp.1 p.2 p.1, rp.2)
  (dropBody rest,
    { st with containers := st.containers ++ [cb.1],
              levels := st.levels ++ [lvl], table := cb.2,
              stack := stack' })

/-- One iteration of the main `while` loop of `parse_inventory`
(lines 206-491): classify the current line, consume it together with any
captured section/body lines, and return the remaining lines and the new
state.  The `elif` chain is mirrored in order; the `# Oversikt over`
fallthrough branch (source line 369) is kept even though the preceding
generic-`#` branch shadows it. -/
def step (l : String) (rest : List String) (st : PSt) :
    List String × PSt :=
  if pyStartsWith l "# Intro" then
    (sectionRest rest, { st with intro := sectionText rest })
  else if pyStartsWith l "# Nummereringsregime" then
    (sectionRest rest, { st with numbering := sectionText rest })
  else if pyStartsWith l "# ID:" ||
      (pyStartsWith l "# Oversikt over" && hasInfix l "ID:") then
    let p := extract_metadata (pyStrip (strDrop l 2))
    if truthy (getS "id" p.1) then
      h1Step ((getS "id" p.1).getD "") p.2 p.1 rest st
    else (rest, st)
  else if pyStartsWith l "# " && !(pyStartsWith l "## ") then
    let heading := pyStrip (strDrop l 2)
    let p := extract_metadata heading
    h1Step (subId p heading 1) p.2 p.1 rest st
  else if pyStartsWith l "# Oversikt over" then (rest, st)
  else if pyStartsWith l "##" && !(pyStartsWith l "#######") then
    subStep l rest st
  else (rest, st)

/-- The main loop with explicit fuel; `none` means the fuel budget was
exhausted before the loop finished. -/
def parseLinesF (fuel : Nat) (lines : List String) (st : PSt) : Option PSt :=
  match lines with
  | [] => some st
  | l :: rest =>
    match fuel with
    | 0 => none
    | fuel + 1 =>
      let p := step l rest st
      parseLinesF fuel p.1 p.2

/-- The main loop, run with the (sufficient, see claim C8) fuel budget of
one unit per input line. -/
def parseLines (lines : List String) (st : PSt) : PSt :=
  (parseLinesF (lines.length + 1) lines st).getD st

/-- The parse state after the line walk of `parse_inventory`. -/
def parseSt (content : String) : PSt :=
  parseLines (splitLines content) initSt

/-- Final pass (lines 493-496): containers with a falsy parent pick up
their entry of the `inferred_parents` table. -/
def applyInferred (tbl : List (String × String)) (c : Container) :
    Container :=
  if !(truthy c.parent) then
    match alLookup c.id tbl with
    | some p => { c with parent := some p }
    | none => c
  else c

/-- The photo directory used for image discovery (lines 503-520):
`photos` metadata, else `photos_link` with `photos/` removed and slashes
stripped, else the container id. -/
def replaceF (pat rep : List Char) : Nat → List Char → List Char
  | _, [] => []
  | 0, l => l
  | fuel + 1, c :: cs =>
    if pat.isPrefixOf (c :: cs) then
      rep ++ replaceF pat rep fuel ((c :: cs).drop pat.length)
    else c :: replaceF pat rep fuel cs

/-- `s.replace(pat, rep)` (all occurrences, left to right). -/
def strReplace (s pat rep : String) : String :=
  String.mk (replaceF pat.data rep.data s.data.length s.data)

/-- `s.strip('/')`. -/
def stripSlash (s : String) : String :=
  String.mk (((s.data.dropWhile (· == '/')).reverse.dropWhile
    (· == '/')).reverse)

def photoDirOf (c : Container) : String :=
  let pd1 : Option String :=
    if !c.metadata.isEmpty && truthy (getS "photos" c.metadata) then
      getS "photos" c.metadata
    else none
  let pd2 : Option String :=
    if truthy pd1 then pd1
    else if !(c.photos_link = "") then
      some (stripSlash (strReplace c.photos_link "photos/" ""))
    else none
  let pd3 : Option String := if truthy pd2 then pd2 else some c.id
  pd3.getD ""

/-- Image-discovery pass (lines 498-524), with the filesystem abstracted
as an oracle `f` mapping a photo directory to the discovered images. -/
def imagePass (f : String → List Image) (cs : List Container) :
    List Container :=
  cs.map (fun c =>
    if !(c.id = "") then { c with images := f (photoDirOf c) } else c)

/-- `parse_inventory`, with image discovery abstracted as the oracle `f`
(the structural parse never consults `f` except to fill `images`). -/
def parse_inventory (f : String → List Image) (content : String) : Doc :=
  let st := parseSt content
  { intro := st.intro, numbering_scheme := st.numbering,
    containers := imagePass f (st.containers.map (applyInferred st.table)) }

/-- The trivial image oracle (no photo directories on disk): used to
state concrete-document claims with images held constant. -/
def noImages : String → List Image := fun _ => []

/-!
## `add_container_id_prefixes`

The pre-pass over the raw text (modelled as a list of lines, without the
trailing newlines that `readlines` keeps and `strip()` discards).
-/

/-- `\d+` at the head: the maximal nonempty digit run and the rest. -/
def digits1 (cs : List Char) : Option (List Char × List Char) :=
  let d := cs.takeWhile Char.isDigit
  if d.isEmpty then none else some (d, cs.dropWhile Char.isDigit)

/-- Alternative `[A-Z]\d+`. -/
def altUpperDigits (cs : List Char) : Option (List Char) :=
  match cs with
  | c :: t => if c.isUpper then (digits1 t).map (fun d => c :: d.1) else none
  | [] => none

/-- Alternative `Box \d+`. -/
def altBoxN (cs : List Char) : Option (List Char) :=
  if ['B', 'o', 'x', ' '].isPrefixOf cs then
    (digits1 (cs.drop 4)).map (fun d => 'B' :: 'o' :: 'x' :: ' ' :: d.1)
  else none

/-- `[A-Z]{k}\d+` for a fixed `k`. -/
def upTake (k : Nat) (cs : List Char) : Option (List Char) :=
  let u := cs.take k
  if u.length = k && u.all Char.isUpper then
    (digits1 (cs.drop k)).map (fun d => u ++ d.1)
  else none

/-- Alternative `[A-Z]{1,3}\d+` (greedy: try 3, then 2, then 1). -/
def altUpper13 (cs : List Char) : Option (List Char) :=
  match upTake 3 cs with
  | some r => some r
  | none =>
    match upTake 2 cs with
    | some r => some r
    | none => upTake 1 cs

/-- Alternative `Seb\d+`. -/
def altSeb (cs : List Char) : Option (List Char) :=
  if ['S', 'e', 'b'].isPrefixOf cs then
    (digits1 (cs.drop 3)).map (fun d => 'S' :: 'e' :: 'b' :: d.1)
  else none

/-- Alternative `[A-Za-z]+\d*`. -/
def altWordDigits (cs : List Char) : Option (List Char) :=
  let w := cs.takeWhile Char.isAlpha
  if w.isEmpty then none
  else some (w ++ (cs.drop w.length).takeWhile Char.isDigit)

/-- `re.match(r'^([A-Z]\d+|Box \d+|[A-Z]{1,3}\d+|Seb\d+|[A-Za-z]+\d*)', heading)`
followed by `.replace(' ', '')` on the matched group. -/
def tentativeId (heading : String) : Option String :=
  let cs := heading.data
  let m :=
    match altUpperDigits cs with
    | some r => some r
    | none =>
      match altBoxN cs with
      | some r => some r
      | none =>
        match altUpper13 cs with
        | some r => some r
        | none =>
          match altSeb cs with
          | some r => some r
          | none => altWordDigits cs
  m.map (fun r => String.mk (r.filter (fun c => !(c == ' '))))

/-- The tentative container id of a candidate heading: explicit `ID:` tag
if truthy, else the shorthand-pattern match. -/
def candId (heading : String) : Option String :=
  if truthy (getS "id" (extract_metadata heading).1) then
    getS "id" (extract_metadata heading).1
  else tentativeId heading

/-- One line of the first pass of `add_container_id_prefixes`: track
the `in_intro_section` flag and, for candidate `## ` headings outside
the reserved sections, record the tentative id and the heading into
`container_ids` / `container_lines`. -/
def fpStep (i : Nat) (flag : Bool) (line : String)
    (ids : List (String × List Nat)) (es : List (Nat × String × String)) :
    Bool × List (String × List Nat) × List (Nat × String × String) :=
  if pyStartsWith line "# Intro" || pyStartsWith line "# Nummereringsregime" then
    (true, ids, es)
  else
    let flag' :=
      if pyStartsWith line "# " && !(pyStartsWith line "## ") then false
      else flag
    if pyStartsWith line "## " && !(pyStartsWith line "### ") then
      if flag' then (flag', ids, es)
      else if hasInfix line "Oversikt over ting lagret" ||
          hasInfix line "Oversikt over boksene" then
        (flag', ids, es)
      else
        let heading := pyStrip (strDrop line 3)
        match candId heading with
        | some cid =>
          if cid = "" then (flag', ids, es)
          else (flag', alAppend cid i ids, es ++ [(i, cid, heading)])
        | none => (flag', ids, es)
    else (flag', ids, es)

/-- First pass of `add_container_id_prefixes`: walk the lines with the
`in_intro_section` flag, collecting `container_ids` (tentative id ↦ line
numbers) and `container_lines` (line number, tentative id, heading), in
order.  `i` is the current line number. -/
def fpAux : Nat → Bool → List String →
    List (String × List Nat) → List (Nat × String × String) →
    List (String × List Nat) × List (Nat × String × String)
  | _, _, [], ids, es => (ids, es)
  | i, flag, line :: rest, ids, es =>
    let p := fpStep i flag line ids es
    fpAux (i + 1) p.1 rest p.2.1 p.2.2

def firstPass (lines : List String) :
    List (String × List Nat) × List (Nat × String × String) :=
  fpAux 0 false lines [] []

/-- The unique id assigned to one candidate heading: suffix the occurrence
number when the tentative id occurs more than once. -/
def uidOf (ids : List (String × List Nat)) (i : Nat) (cid : String) :
    String :=
  let group := (alLookup cid ids).getD []
  if group.length > 1 then cid ++ "-" ++ natToStr (idxOf i group + 1)
  else cid

/-- The rewritten heading line. -/
def rewriteLine (uid heading : String) : String :=
  "## ID:" ++ uid ++ " " ++ heading

/-- Result of the pass.  `rewrites` is instrumentation: the
`(line number, injected id)` pairs of the headings actually modified. -/
structure DedupRes where
  changes : Nat
  dup_map : List (String × List String)
  out : List String
  rewrites : List (Nat × String)
deriving DecidableEq

/-- Second pass: one candidate heading. -/
def spStep (ids : List (String × List Nat)) (r : DedupRes)
    (e : Nat × String × String) : DedupRes :=
  let group := (alLookup e.2.1 ids).getD []
  let uid := uidOf ids e.1 e.2.1
  let dm :=
    if group.length > 1 then alAppend e.2.1 uid r.dup_map else r.dup_map
  if truthy (getS "id" (extract_metadata e.2.2).1) then
    { r with dup_map := dm }
  else
    { changes := r.changes + 1, dup_map := dm,
      out := r.out.set e.1 (rewriteLine uid e.2.2),
      rewrites := r.rewrites ++ [(e.1, uid)] }

/-- `add_container_id_prefixes` on the file's lines; the file is written
back (i.e. `out` differs from the input) only when `changes > 0`. -/
def add_container_id_prefixes (lines : List String) : DedupRes :=
  let fp := firstPass lines
  let r := fp.2.foldl (spStep fp.1)
    { changes := 0, dup_map := [], out := lines, rewrites := [] }
  { r with out := if r.changes > 0 then r.out else lines }

/-!
## `validate_inventory`
-/

/-- Deduplicate keeping first occurrences; models `list(set(...))` up to
element order (Python's set iteration order is unspecified; in every
situation the theorems below consider, the branch using it is not
taken). -/
def dedupKeepFirst : List String → List String
  | [] => []
  | x :: rest =>
    if x ∈ rest then
      x :: (dedupKeepFirst rest).filter (fun y => !(y = x))
    else x :: dedupKeepFirst rest

/-- `', '.join(l)`. -/
def joinComma : List String → String
  | [] => ""
  | [x] => x
  | x :: rest => x ++ ", " ++ joinComma rest

def dupIdMsg (cid : String) : String :=
  "⚠️  Duplicate container ID: " ++ cid

def multiParentMsg (cid : String) (ps : List String) : String :=
  "⚠️  " ++ cid ++ " has multiple parents: " ++ joinComma ps

def missingParentMsg (cid p : String) : String :=
  "❌ " ++ cid ++ ": parent \u0027" ++ p ++ "\u0027 not found"

/-- First validator loop (collect ids, flag duplicates, gather parents
per container id). -/
def vStep (acc : List String × List String × List (String × List String))
    (c : Container) :
    List String × List String × List (String × List String) :=
  if !(c.id = "") then
    let issues :=
      if c.id ∈ acc.2.1 then acc.1 ++ [dupIdMsg c.id] else acc.1
    let ids := acc.2.1 ++ [c.id]
    let cwp :=
      if truthy c.parent then alAppend c.id (c.parent.getD "") acc.2.2
      else acc.2.2
    (issues, ids, cwp)
  else acc

/-- Second validator loop (flag ids that collected more than one
distinct parent). -/
def v2Step (iss : List String) (kv : String × List String) : List String :=
  if kv.2.length > 1 && (dedupKeepFirst kv.2).length > 1 then
    iss ++ [multiParentMsg kv.1 (dedupKeepFirst kv.2)]
  else iss

/-- Third validator loop (flag parents that reference no known id). -/
def v3Step (ids : List String) (iss : List String) (c : Container) :
    List String :=
  if truthy c.parent && !(c.parent.getD "" ∈ ids) then
    iss ++ [missingParentMsg c.id (c.parent.getD "")]
  else iss

/-- `validate_inventory`: pure function from the parsed structure to the
ordered list of issues (the embedding makes the no-mutation contract
structural: the input is simply not part of the output). -/
def validate_inventory (d : Doc) : List String :=
  let a := d.containers.foldl vStep ([], [], [])
  d.containers.foldl (v3Step a.2.1) (a.2.2.foldl v2Step a.1)

/-!
## Infrastructure lemmas: the loop fuel is sufficient
-/

theorem length_dropWhile_le {α : Type} (p : α → Bool) (l : List α) :
    (l.dropWhile p).length ≤ l.length := by
  induction l with
  | nil => simp
  | cons x xs ih =>
    rw [List.dropWhile_cons]
    split
    · exact le_trans ih (Nat.le_succ _)
    · exact le_refl _

/-- Every branch of the loop body consumes at least the current line:
the remaining lines it returns are drawn from `rest`. -/
theorem step_len (l : String) (rest : List String) (st : PSt) :
    (step l rest st).1.length ≤ rest.length := by
  unfold step
  split_ifs <;>
    first
      | exact le_refl _
      | exact length_dropWhile_le _ _
      | (simp only [dropBody]; exact length_dropWhile_le _ _)
      | (simp only [dropBody]
         split
         · exact length_dropWhile_le _ _
         · exact le_refl _)

theorem parseLinesF_nil (fuel : Nat) (st : PSt) :
    parseLinesF fuel [] st = some st := by
  cases fuel <;> rfl

theorem parseLinesF_cons (fuel : Nat) (l : String) (rest : List String)
    (st : PSt) :
    parseLinesF (fuel + 1) (l :: rest) st
      = parseLinesF fuel (step l rest st).1 (step l rest st).2 := rfl

/-- Any fuel of at least one unit per line makes the fueled loop return
the result of `parseLines`. -/
theorem parseLinesF_eq_parseLines :
    ∀ n lines st fuel, List.length lines ≤ n → List.length lines ≤ fuel →
      parseLinesF fuel lines st = some (parseLines lines st) := by
  intro n
  induction n with
  | zero =>
    intro lines st fuel h1 _
    rw [List.length_eq_zero.mp (Nat.le_zero.mp h1), parseLinesF_nil]
    rfl
  | succ n ih =>
    intro lines st fuel h1 h2
    cases lines with
    | nil => rw [parseLinesF_nil]; rfl
    | cons l rest =>
      cases fuel with
      | zero => exact absurd h2 (by simp)
      | succ fuel =>
        have hlen : (step l rest st).1.length ≤ rest.length :=
          step_len l rest st
        have hn : rest.length ≤ n := Nat.le_of_succ_le_succ h1
        have hf : rest.length ≤ fuel := Nat.le_of_succ_le_succ h2
        have e1 : parseLinesF (fuel + 1) (l :: rest) st
            = some (parseLines (step l rest st).1 (step l rest st).2) := by
          rw [parseLinesF_cons]
          exact ih _ _ fuel (le_trans hlen hn) (le_trans hlen hf)
        have e2 : parseLinesF ((l :: rest).length + 1) (l :: rest) st
            = some (parseLines (step l rest st).1 (step l rest st).2) := by
          rw [show (l :: rest).length + 1 = rest.length + 1 + 1 from rfl,
            parseLinesF_cons]
          exact ih _ _ (rest.length + 1) (le_trans hlen hn)
            (le_trans hlen (Nat.le_succ _))
        have e3 : parseLines (l :: rest) st
            = parseLines (step l rest st).1 (step l rest st).2 := by
          show (parseLinesF ((l :: rest).length + 1) (l :: rest) st).getD st
            = _
          rw [e2]
          rfl
        rw [e3]
        exact e1

theorem parseLines_nil (st : PSt) : parseLines [] st = st := rfl

/-- Unfolding equation of the main loop. -/
theorem parseLines_cons (l : String) (rest : List String) (st : PSt) :
    parseLines (l :: rest) st
      = parseLines (step l rest st).1 (step l rest st).2 := by
  have e2 : parseLinesF ((l :: rest).length + 1) (l :: rest) st
      = some (parseLines (step l rest st).1 (step l rest st).2) := by
    rw [show (l :: rest).length + 1 = rest.length + 1 + 1 from rfl,
      parseLinesF_cons]
    exact parseLinesF_eq_parseLines (step l rest st).1.length _ _ _ le_rfl
      (le_trans (step_len l rest st) (Nat.le_succ _))
  show (parseLinesF ((l :: rest).length + 1) (l :: rest) st).getD st = _
  rw [e2]
  rfl

/-!
## Concrete claim documents
-/

def c5doc : String :=
  "## ID:A23 Box\n* tag:winter,sport Skis\n### ID:A23-Sub Inner Tray"

def c1doc : String :=
  "## ID:C Box\n* ID:X thing\n## ID:D Crate\n* ID:X thing\n### ID:X Tray"

def c6doc : String := "## ID:B Box\n* ID:B self"

def c2doc : String := "# ID:A parent:B Garage"

def c3lines : List String := ["## ID:A Box", "## ID:A Crate"]

/-- Invariant-preservation induction principle for the main loop. -/
theorem parseLines_inv (P : PSt → Prop)
    (hstep : ∀ l rest st, P st → P (step l rest st).2) :
    ∀ n lines st, List.length lines ≤ n → P st → P (parseLines lines st) := by
  intro n
  induction n with
  | zero =>
    intro lines st h1 hP
    rw [List.length_eq_zero.mp (Nat.le_zero.mp h1), parseLines_nil]
    exact hP
  | succ n ih =>
    intro lines st h1 hP
    cases lines with
    | nil => rw [parseLines_nil]; exact hP
    | cons l rest =>
      rw [parseLines_cons]
      exact ih _ _
        (le_trans (step_len l rest st) (Nat.le_of_succ_le_succ h1))
        (hstep l rest st hP)

/-!
## Claim theorems (concrete documents)
-/

/-- Claim C8: for every input text, `parse_inventory` terminates and
returns a structure: the faithful fueled rendering of the line loop,
given one fuel unit per input line (each outer iteration strictly
advances the line index, consuming at least one line, cf. `step_len`),
never exhausts its budget and returns exactly the total parse function's
result; every heuristic in `step` is total, so no input can make the
walk fail. -/
theorem claim_C8 (content : String) (st : PSt) :
    parseLinesF ((splitLines content).length + 1) (splitLines content) st
      = some (parseLines (splitLines content) st) :=
  parseLinesF_eq_parseLines (splitLines content).length _ _ _ le_rfl
    (Nat.le_succ _)

/-- Claim C5: parsing the document `## ID:A23 Box` / `* tag:winter,sport
Skis` / `### ID:A23-Sub Inner Tray` yields container `A23` with exactly
one item named `Skis` whose metadata maps `tags` to `[winter, sport]`,
and container `A23-Sub` with parent `A23` (inferred from the level-2
entry of the heading stack, which holds `A23` when the level-3 heading is
reached). -/
theorem claim_C5 :
    ((parse_inventory noImages c5doc).containers.map
        (fun c => (c.id, c.parent)) = [("A23", none), ("A23-Sub", some "A23")])
    ∧ ((parse_inventory noImages c5doc).containers.map
        (fun c => c.items.map (fun it => (it.name, it.metadata)))
      = [[("Skis", [("tags", MVal.ls ["winter", "sport"])])], []]) := by
  exact ⟨by decide, by decide⟩

/-- Claim C1, counterexample: in `c1doc` a bullet `* ID:X thing` sits
inside container `C` (with `X ≠ C`), and the later heading `### ID:X
Tray` resolves to id `X` with no explicit `parent:` tag — the claim's
premise holds for `C` — yet the parsed container `X` has parent `D`
(the holder of the *later* `ID:X` bullet), not `C`: the side-table entry
for `X` is overwritten by each subsequent bullet carrying `ID:X`. -/
theorem claim_C1_counterexample :
    ((parse_inventory noImages c1doc).containers.map
        (fun c => (c.id, c.parent)) = [("C", none), ("D", none), ("X", some "D")])
    ∧ getS "id" (extract_metadata "ID:X thing").1 = some "X"
    ∧ resolvedId "### ID:X Tray" = "X"
    ∧ truthy (getS "parent"
        (extract_metadata (headingOf "### ID:X Tray")).1) = false
    ∧ ¬ ((parse_inventory noImages c1doc).containers.map
        (fun c => (c.id, c.parent)) = [("C", none), ("D", none), ("X", some "C")]) := by
  exact ⟨by decide, by decide, by decide, by decide, by decide⟩

/-- Claim C2, counterexample: the level-1 heading `# ID:A parent:B
Garage` carries an explicit `parent:B` tag (visible in the stored
metadata), but the top-level-container branch hard-codes `parent = None`,
so the stored parent is `none`, not `B`. -/
theorem claim_C2_counterexample :
    ((parse_inventory noImages c2doc).containers.map
        (fun c => (c.id, c.parent, getS "parent" c.metadata))
      = [("A", none, some "B")])
    ∧ ¬ ((parse_inventory noImages c2doc).containers.map Container.parent
        = [some "B"]) := by
  exact ⟨by decide, by decide⟩

/-- Claim C6, counterexample: parsing `## ID:B Box` / `* ID:B self`
stores `B → B` in the side table (the level-2 collector records an
item's id without comparing it to the enclosing container's id, unlike
the level-1 collector), and the final inference pass then sets container
`B`'s parent to its own id. -/
theorem claim_C6_counterexample :
    (parse_inventory noImages c6doc).containers.map
        (fun c => (c.id, c.parent)) = [("B", some "B")] := by
  decide

/-- Claim C3, counterexample: two level-2 headings carrying the same
explicit `ID:A` tag survive `add_container_id_prefixes` unchanged (the
pass reports zero modifications, because it only rewrites headings that
lack an explicit tag), and parsing the text it leaves behind yields the
duplicate container ids `A`, `A`. -/
theorem claim_C3_counterexample :
    ((add_container_id_prefixes c3lines).changes = 0)
    ∧ ((add_container_id_prefixes c3lines).out = c3lines)
    ∧ ((parse_inventory noImages
        (joinNL (add_container_id_prefixes c3lines).out)).containers.map
        Container.id = ["A", "A"])
    ∧ ¬ ((parse_inventory noImages
        (joinNL (add_container_id_prefixes c3lines).out)).containers.map
        Container.id).Nodup := by
  exact ⟨by decide, by decide, by decide, by decide⟩

/-!
## Generic helper lemmas
-/

theorem startsWith_chars {l pre : String} (h : pyStartsWith l pre = true) :
    ∃ t, l.data = pre.data ++ t := by
  unfold pyStartsWith at h
  obtain ⟨t, ht⟩ := List.isPrefixOf_iff_prefix.mp h
  exact ⟨t, ht.symm⟩

theorem alLookup_alInsert_self {α β : Type} [DecidableEq α] (k : α) (v : β)
    (m : List (α × β)) : alLookup k (alInsert k v m) = some v := by
  induction m with
  | nil => simp [alInsert, alLookup]
  | cons kv rest ih =>
    by_cases h : kv.1 = k
    · simp [alInsert, alLookup, h]
    · simp [alInsert, alLookup, h, ih]

theorem alLookup_alInsert_ne {α β : Type} [DecidableEq α] {k k' : α}
    (v : β) (m : List (α × β)) (h : k' ≠ k) :
    alLookup k (alInsert k' v m) = alLookup k m := by
  induction m with
  | nil => simp [alInsert, alLookup, h]
  | cons kv rest ih =>
    by_cases hk : kv.1 = k'
    · simp [alInsert, alLookup, hk, h, Ne.symm h]
    · by_cases hk2 : kv.1 = k <;> simp [alInsert, alLookup, hk, hk2, ih, Ne.symm h]

/-!
## Claim C9: determinism up to the images field
-/

/-- Erase the `images` field of every container. -/
def eraseImages (d : Doc) : Doc :=
  { d with containers := d.containers.map (fun c => { c with images := [] }) }

theorem eraseImages_imagePass (f : String → List Image)
    (cs : List Container) :
    (imagePass f cs).map (fun c => { c with images := ([] : List Image) })
      = cs.map (fun c => { c with images := ([] : List Image) }) := by
  induction cs with
  | nil => rfl
  | cons c cs ih =>
    simp only [imagePass, List.map_cons] at *
    rw [ih]
    by_cases h : c.id = "" <;> simp [h]

/-- Claim C9: parsing is deterministic in every field except `images`:
for the same document text, two parses that differ only in the
filesystem state seen by image discovery (modelled by the oracles `f`
and `g`) produce identical structured output once the `images` field is
erased.  In particular two parses over the same filesystem state are
identical outright, since the embedded parse is a function. -/
theorem claim_C9 (f g : String → List Image) (content : String) :
    eraseImages (parse_inventory f content)
      = eraseImages (parse_inventory g content) := by
  unfold parse_inventory eraseImages
  simp only [Doc.mk.injEq, true_and]
  exact (eraseImages_imagePass f _).trans (eraseImages_imagePass g _).symm

/-!
## Claim C10: the three item-dict shapes
-/

/-- Claim C10: item records do not have a uniform shape.  A `* ` bullet
collected under a level-1 container yields an item dict with no `id` or
`parent` key and `indented = False`, even when its text carries `ID:`
metadata (the metadata lands inside `metadata` only); a `* ` bullet under
a level-2-to-6 container yields an item with `id` and `parent` keys
(possibly holding `None`) and no `indented` key; a `  * ` bullet under a
level-2-to-6 container yields an item with `id`, `parent` and
`indented = True`. -/
theorem claim_C10 (cid : String)
    (acc : Container × List (String × String)) (l : String) :
    (pyStartsWith l "* " = true →
      ∃ nm rt md, (h1Line cid acc l).1.items = acc.1.items ++
        [{ idK := none, parentK := none, name := nm, raw_text := rt,
           metadata := md, indentedK := some false }])
    ∧ (pyStartsWith l "* " = true →
      ∃ i pr nm rt md, (subLine cid acc l).1.items = acc.1.items ++
        [{ idK := some i, parentK := some pr, name := nm, raw_text := rt,
           metadata := md, indentedK := none }])
    ∧ (pyStartsWith l "  * " = true →
      ∃ i pr nm rt md, (subLine cid acc l).1.items = acc.1.items ++
        [{ idK := some i, parentK := some pr, name := nm, raw_text := rt,
           metadata := md, indentedK := some true }]) := by
  refine ⟨fun h => ?_, fun h => ?_, fun h => ?_⟩
  · obtain ⟨t, ht⟩ := startsWith_chars h
    have hb : pyStartsWith l "![" = false := by
      simp [pyStartsWith, ht, List.isPrefixOf]
    unfold h1Line
    rw [hb, h]
    simp only [Bool.false_eq_true, if_false, if_true]
    exact ⟨_, _, _, rfl⟩
  · obtain ⟨t, ht⟩ := startsWith_chars h
    have hb : pyStartsWith l "![" = false := by
      simp [pyStartsWith, ht, List.isPrefixOf]
    unfold subLine
    rw [hb, h]
    simp only [Bool.false_eq_true, if_false, if_true]
    exact ⟨_, _, _, _, _, rfl⟩
  · obtain ⟨t, ht⟩ := startsWith_chars h
    have hb : pyStartsWith l "![" = false := by
      simp [pyStartsWith, ht, List.isPrefixOf]
    have hs : pyStartsWith l "* " = false := by
      simp [pyStartsWith, ht, List.isPrefixOf]
    unfold subLine
    rw [hb, hs, h]
    simp only [Bool.false_eq_true, if_false, if_true]
    exact ⟨_, _, _, _, _, rfl⟩

/-- Witness for claim C10 at concrete bullets: a level-1 bullet carrying
`ID:Z` still yields a keyless item; a level-2 unindented and an indented
bullet yield the other two shapes. -/
theorem claim_C10_witness :
    (∃ nm rt md,
      (h1Line "C" (mkContainer "C" none "" [], []) "* ID:Z thing").1.items
        = [{ idK := none, parentK := none, name := nm, raw_text := rt,
             metadata := md, indentedK := some false }])
    ∧ (∃ i pr nm rt md,
      (subLine "C" (mkContainer "C" none "" [], []) "* ID:Z thing").1.items
        = [{ idK := some i, parentK := some pr, name := nm, raw_text := rt,
             metadata := md, indentedK := none }])
    ∧ (∃ i pr nm rt md,
      (subLine "C" (mkContainer "C" none "" [], []) "  * ID:Z thing").1.items
        = [{ idK := some i, parentK := some pr, name := nm, raw_text := rt,
             metadata := md, indentedK := some true }]) :=
  ⟨(claim_C10 "C" (mkContainer "C" none "" [], []) "* ID:Z thing").1
      (by decide),
   (claim_C10 "C" (mkContainer "C" none "" [], []) "* ID:Z thing").2.1
      (by decide),
   (claim_C10 "C" (mkContainer "C" none "" [], []) "  * ID:Z thing").2.2
      (by decide)⟩

/-!
## Claims C1 and C6 (amended): side-table recording and precedence
-/

/-- A line starting with `##` (and not with seven hashes) falls through
every earlier branch of the `elif` chain and is handled by `subStep`. -/
theorem step_eq_subStep (l : String) (rest : List String) (st : PSt)
    (h2 : pyStartsWith l "##" = true)
    (h7 : pyStartsWith l "#######" = false) :
    step l rest st = subStep l rest st := by
  obtain ⟨t, ht⟩ := startsWith_chars h2
  have e1 : pyStartsWith l "# Intro" = false := by
    simp [pyStartsWith, ht, List.isPrefixOf]
  have e2 : pyStartsWith l "# Nummereringsregime" = false := by
    simp [pyStartsWith, ht, List.isPrefixOf]
  have e3 : pyStartsWith l "# ID:" = false := by
    simp [pyStartsWith, ht, List.isPrefixOf]
  have e4 : pyStartsWith l "# " = false := by
    simp [pyStartsWith, ht, List.isPrefixOf]
  have e5 : pyStartsWith l "# Oversikt over" = false := by
    simp [pyStartsWith, ht, List.isPrefixOf]
  unfold step
  rw [e1, e2, e3, e4, e5, h2, h7]
  simp

/-- A single body line leaves the container's `id`, `parent`, `heading`
and `metadata` untouched (only `items` and `description` accumulate). -/
theorem subLine_keeps (cid : String)
    (acc : Container × List (String × String)) (l : String) :
    (subLine cid acc l).1.id = acc.1.id
    ∧ (subLine cid acc l).1.parent = acc.1.parent
    ∧ (subLine cid acc l).1.metadata = acc.1.metadata := by
  unfold subLine descAppend
  split_ifs <;> simp

theorem foldl_subLine_keeps (cid : String) (lines : List String) :
    ∀ acc : Container × List (String × String),
      (lines.foldl (subLine cid) acc).1.id = acc.1.id
      ∧ (lines.foldl (subLine cid) acc).1.parent = acc.1.parent
      ∧ (lines.foldl (subLine cid) acc).1.metadata = acc.1.metadata := by
  induction lines with
  | nil => intro acc; exact ⟨rfl, rfl, rfl⟩
  | cons l rest ih =>
    intro acc
    rw [List.foldl_cons]
    refine ⟨?_, ?_, ?_⟩
    · exact ((ih (subLine cid acc l)).1).trans (subLine_keeps cid acc l).1
    · exact ((ih (subLine cid acc l)).2.1).trans (subLine_keeps cid acc l).2.1
    · exact ((ih (subLine cid acc l)).2.2).trans (subLine_keeps cid acc l).2.2

/-- A `* ` bullet whose metadata carries an id records
`id → enclosing section` into the side table, unconditionally. -/
theorem subLine_records (cid X : String)
    (acc : Container × List (String × String)) (bl : String)
    (hb : pyStartsWith bl "* " = true)
    (hid : getS "id" (extract_metadata (pyStrip (strDrop bl 2))).1 = some X)
    (hX : X ≠ "") (hcid : cid ≠ "") :
    alLookup X (subLine cid acc bl).2 = some cid := by
  obtain ⟨t, ht⟩ := startsWith_chars hb
  have hbang : pyStartsWith bl "![" = false := by
    simp [pyStartsWith, ht, List.isPrefixOf]
  unfold subLine
  rw [hbang, hb]
  simp only [Bool.false_eq_true, if_false, if_true, hid]
  rw [if_pos (by simp [truthy, hid, hX, hcid])]
  simp only [hid, Option.getD_some]
  exact alLookup_alInsert_self X cid acc.2

/-- The H1 body collector never touches the side-table entry keyed by
the enclosing container's own id (an item id equal to it is skipped). -/
theorem h1Line_keeps_self (cid : String)
    (acc : Container × List (String × String)) (l : String) :
    alLookup cid (h1Line cid acc l).2 = alLookup cid acc.2 := by
  unfold h1Line
  split_ifs <;> try rfl
  simp only []
  split_ifs <;> try rfl
  rename_i hguard
  simp only [Bool.and_eq_true, Bool.not_eq_true', decide_eq_false_iff_not]
    at hguard
  exact alLookup_alInsert_ne cid acc.2 hguard.2

/-- Claim C6 (amended), part 1: over the whole of a level-1 container's
body, the side-table entry for the container's own id is unchanged. -/
theorem foldl_h1Line_keeps_self (cid : String) (lines : List String) :
    ∀ acc : Container × List (String × String),
      alLookup cid (lines.foldl (h1Line cid) acc).2 = alLookup cid acc.2 := by
  induction lines with
  | nil => intro acc; rfl
  | cons l rest ih =>
    intro acc
    rw [List.foldl_cons, ih (h1Line cid acc l), h1Line_keeps_self]

/-- The final pass leaves a truthy parent untouched. -/
theorem applyInferred_keeps (tbl : List (String × String)) (c : Container)
    (p : String) (h : c.parent = some p) (hne : p ≠ "") :
    applyInferred tbl c = c := by
  unfold applyInferred
  rw [if_neg]
  simp [truthy, h, hne]

/-- Claim C6 (amended): while collecting a level-1 container's body, an
item whose explicit id equals the enclosing container's id is not
recorded into the side table (the entry for the container's own id is
preserved across the whole body); the level-2-to-6 collector, in
contrast, records an item id unconditionally — even one equal to the
enclosing container's id, producing a self-parent entry — so a parsed
container's stored parent can equal its own id
(cf. `claim_C6_counterexample`). -/
theorem claim_C6_amended (cid : String) (lines : List String)
    (c : Container) (tbl : List (String × String)) (bl : String)
    (acc : Container × List (String × String)) :
    (alLookup cid (lines.foldl (h1Line cid) (c, tbl)).2 = alLookup cid tbl)
    ∧ (pyStartsWith bl "* " = true →
       getS "id" (extract_metadata (pyStrip (strDrop bl 2))).1 = some cid →
       cid ≠ "" →
       alLookup cid (subLine cid acc bl).2 = some cid) :=
  ⟨foldl_h1Line_keeps_self cid lines (c, tbl),
   fun hb hid hcid => subLine_records cid cid acc bl hb hid hcid hcid⟩

/-- Witness for claim C6 (amended): the H1 collector drops the
self-referencing bullet `* ID:B self` from the table, while the
sub-level collector records `B → B`. -/
theorem claim_C6_amended_witness :
    (alLookup "B" (["* ID:B self"].foldl (h1Line "B")
        (mkContainer "B" none "" [], [])).2 = none)
    ∧ (alLookup "B" (subLine "B" (mkContainer "B" none "" [], [])
        "* ID:B self").2 = some "B") :=
  ⟨(claim_C6_amended "B" ["* ID:B self"] (mkContainer "B" none "" [])
      [] "" (mkContainer "B" none "" [], [])).1,
   (claim_C6_amended "B" [] (mkContainer "B" none "" []) [] "* ID:B self"
      (mkContainer "B" none "" [], [])).2 (by decide) (by decide)
      (by decide)⟩

/-- Claim C1 (amended): (a) a `* ` bullet carrying `ID:X` inside section
`cid` overwrites the side-table entry for `X` with `cid` — the most
recent such bullet wins; (b) when a `##`-`######` heading resolving to id
`X` with no truthy explicit `parent:` tag is reached while the side
table maps `X` to `C`, the container is created with parent `C`,
whatever the heading stack holds; (c) the final pass preserves any
nonempty stored parent.  Together: the later container's parent is the
section of the last `ID:X` bullet recorded before its heading. -/
theorem claim_C1_amended (l : String) (rest : List String) (st : PSt)
    (bl cid : String) (acc : Container × List (String × String))
    (tbl : List (String × String)) (c : Container) (X C : String) :
    (pyStartsWith bl "* " = true →
      getS "id" (extract_metadata (pyStrip (strDrop bl 2))).1 = some X →
      X ≠ "" → cid ≠ "" →
      alLookup X (subLine cid acc bl).2 = some cid)
    ∧ (pyStartsWith l "##" = true → pyStartsWith l "#######" = false →
      resolvedId l = X →
      truthy (getS "parent" (extract_metadata (headingOf l)).1) = false →
      alLookup X st.table = some C →
      ∃ c', (step l rest st).2.containers = st.containers ++ [c']
        ∧ c'.id = X ∧ c'.parent = some C)
    ∧ (c.parent = some C → C ≠ "" → applyInferred tbl c = c) := by
  refine ⟨fun hb hid hX hcid => subLine_records cid X acc bl hb hid hX hcid,
    fun h2 h7 hres hpar htbl => ?_, fun hp hC => applyInferred_keeps tbl c C hp hC⟩
  rw [step_eq_subStep l rest st h2 h7]
  unfold subStep
  refine ⟨((takeBody rest).foldl (subLine (resolvedId l))
    (mkContainer (resolvedId l)
      (resolveParent (resolvedId l) (countHash l)
        (extract_metadata (headingOf l)).1 st).1
      (extract_metadata (headingOf l)).2
      (extract_metadata (headingOf l)).1,
     (resolveParent (resolvedId l) (countHash l)
        (extract_metadata (headingOf l)).1 st).2)).1, rfl, ?_, ?_⟩
  · rw [(foldl_subLine_keeps _ _ _).1]
    exact hres
  · rw [(foldl_subLine_keeps _ _ _).2.1]
    show (resolveParent (resolvedId l) (countHash l)
      (extract_metadata (headingOf l)).1 st).1 = some C
    unfold resolveParent
    rw [if_neg (by simp [hpar]), hres, htbl]

/-- Witness for claim C1 (amended) at concrete inputs: the bullet
`* ID:X thing` inside section `D` maps `X → D`; a `### ID:X Tray`
heading reached with the table mapping `X → D` creates container `X`
with parent `D` even though the heading stack is empty; and the final
pass keeps parent `D`. -/
theorem claim_C1_amended_witness :
    (alLookup "X" (subLine "D" (mkContainer "D" none "" [], [("X", "C")])
        "* ID:X thing").2 = some "D")
    ∧ (∃ c', (step "### ID:X Tray" []
        { initSt with table := [("X", "D")] }).2.containers = [] ++ [c']
        ∧ c'.id = "X" ∧ c'.parent = some "D")
    ∧ (applyInferred [] (mkContainer "X" (some "D") "" [])
        = mkContainer "X" (some "D") "" []) :=
  ⟨(claim_C1_amended "" [] initSt "* ID:X thing" "D"
      (mkContainer "D" none "" [], [("X", "C")]) []
      (mkContainer "X" (some "D") "" []) "X" "D").1
      (by decide) (by decide) (by decide) (by decide),
   (claim_C1_amended "### ID:X Tray" [] { initSt with table := [("X", "D")] }
      "" "" (mkContainer "" none "" [], []) []
      (mkContainer "X" (some "D") "" []) "X" "D").2.1
      (by decide) (by decide) (by decide) (by decide) (by decide),
   (claim_C1_amended "" [] initSt "" "" (mkContainer "" none "" [], []) []
      (mkContainer "X" (some "D") "" []) "X" "D").2.2 rfl (by decide)⟩

/-!
## Claim C2 (amended): explicit parent tags on level-2-to-6 containers
-/

/-- The C2 invariant: the level instrumentation is in lockstep with the
container list, and every container opened at level 2-6 whose heading
metadata carries a truthy `parent:` tag stores exactly that value. -/
def InvC2 (st : PSt) : Prop :=
  st.containers.length = st.levels.length ∧
  ∀ cl ∈ st.containers.zip st.levels, 2 ≤ cl.2 →
    ∀ p, getS "parent" cl.1.metadata = some p → p ≠ "" →
      cl.1.parent = some p

theorem h1Step_InvC2 (cid name : String) (m : Meta) (rest : List String)
    (st : PSt) (h : InvC2 st) : InvC2 (h1Step cid name m rest st).2 := by
  unfold h1Step
  refine ⟨by simp [h.1], ?_⟩
  intro cl hm
  rw [List.zip_append h.1] at hm
  rcases List.mem_append.mp hm with hm | hm
  · exact h.2 cl hm
  · simp only [List.zip_cons_cons, List.zip_nil_right, List.mem_singleton]
      at hm
    rw [hm]
    intro h2
    omega

theorem subStep_InvC2 (l : String) (rest : List String) (st : PSt)
    (h : InvC2 st) : InvC2 (subStep l rest st).2 := by
  unfold subStep
  refine ⟨by simp [h.1], ?_⟩
  intro cl hm
  rw [List.zip_append h.1] at hm
  rcases List.mem_append.mp hm with hm | hm
  · exact h.2 cl hm
  · simp only [List.zip_cons_cons, List.zip_nil_right, List.mem_singleton]
      at hm
    rw [hm]
    intro _ p hmeta hne
    rw [(foldl_subLine_keeps _ _ _).2.2] at hmeta
    have hmeta' : getS "parent" (extract_metadata (headingOf l)).1 = some p :=
      hmeta
    rw [(foldl_subLine_keeps _ _ _).2.1]
    show (resolveParent (resolvedId l) (countHash l)
      (extract_metadata (headingOf l)).1 st).1 = some p
    unfold resolveParent
    rw [if_pos (by simp [truthy, hmeta', hne])]
    exact hmeta' 

theorem step_InvC2 (l : String) (rest : List String) (st : PSt)
    (h : InvC2 st) : InvC2 (step l rest st).2 := by
  unfold step
  split_ifs
  · exact h
  · exact h
  · simp only []
    split
    · exact h1Step_InvC2 _ _ _ _ _ h
    · exact h
  · exact h1Step_InvC2 _ _ _ _ _ h
  · exact h
  · exact subStep_InvC2 _ _ _ h
  · exact h

theorem applyInferred_metadata (tbl : List (String × String))
    (c : Container) : (applyInferred tbl c).metadata = c.metadata := by
  unfold applyInferred
  split_ifs
  · split <;> rfl
  · rfl

/-- Claim C2 (amended): for every parsed container that was opened by a
level-2-to-6 heading (as recorded by the level instrumentation kept in
lockstep with the container list) and whose heading metadata carries a
truthy explicit `parent:` tag, the stored parent — after the final
inference pass and the image pass — equals that tag's value exactly,
regardless of nesting position, side-table entries or the top-level
anchor.  (Level-1 containers ignore their `parent:` tag:
`claim_C2_counterexample`.) -/
theorem claim_C2_amended (f : String → List Image) (content : String) :
    ∀ cl ∈ (parse_inventory f content).containers.zip
        (parseSt content).levels,
      2 ≤ cl.2 → ∀ p, getS "parent" cl.1.metadata = some p → p ≠ "" →
        cl.1.parent = some p := by
  intro cl hm h2 p hmeta hne
  have hinv : InvC2 (parseSt content) :=
    parseLines_inv InvC2 step_InvC2 (splitLines content).length
      (splitLines content) initSt le_rfl
      ⟨rfl, by intro cl hm; simp [initSt] at hm⟩
  have hcontainers : (parse_inventory f content).containers
      = ((parseSt content).containers.map
          (applyInferred (parseSt content).table)).map
          (fun c => if !(c.id = "") then
            { c with images := f (photoDirOf c) } else c) := rfl
  rw [hcontainers, List.map_map, List.zip_map_left] at hm
  obtain ⟨x, hx, hcl⟩ := List.mem_map.mp hm
  subst hcl
  have hmeta2 : getS "parent" x.1.metadata = some p := by
    have hme : ((fun c => if !(c.id = "") then
        { c with images := f (photoDirOf c) } else c)
          (applyInferred (parseSt content).table x.1)).metadata
        = x.1.metadata := by
      beta_reduce
      split <;> simp [applyInferred_metadata]
    rw [show (Prod.map ((fun c => if !(c.id = "") then
        { c with images := f (photoDirOf c) } else c) ∘
        applyInferred (parseSt content).table) id x).1
        = (fun c => if !(c.id = "") then
        { c with images := f (photoDirOf c) } else c)
          (applyInferred (parseSt content).table x.1) from rfl, hme] at hmeta
    exact hmeta
  have h2x : 2 ≤ x.2 := h2
  have hpar : x.1.parent = some p := hinv.2 x hx h2x p hmeta2 hne
  have hfix : applyInferred (parseSt content).table x.1 = x.1 :=
    applyInferred_keeps _ _ p hpar hne
  show ((fun c => if !(c.id = "") then
    { c with images := f (photoDirOf c) } else c)
      (applyInferred (parseSt content).table x.1)).parent = some p
  rw [hfix]
  have : ((fun c => if !(c.id = "") then
      { c with images := f (photoDirOf c) } else c) x.1).parent
      = x.1.parent := by
    beta_reduce
    split <;> rfl
  rw [this, hpar]

def c2wdoc : String := "## ID:K parent:P Box"

def c2wc : Container :=
  (parse_inventory noImages c2wdoc).containers.headD
    (mkContainer "" none "" [])

/-- Witness for claim C2 (amended): the single container of
`## ID:K parent:P Box` is at level 2 with metadata parent `P`, and its
stored parent is exactly `P`. -/
theorem claim_C2_amended_witness : c2wc.parent = some "P" :=
  claim_C2_amended noImages c2wdoc (c2wc, 2) (by decide) (by decide) "P"
    (by decide) (by decide)

/-!
## Claim C7: the validator on a single dangling parent
-/

theorem alAppend_not_mem {α β : Type} [DecidableEq α] (k : α) (v : β)
    (m : List (α × List β)) (h : ∀ kv ∈ m, kv.1 ≠ k) :
    alAppend k v m = m ++ [(k, [v])] := by
  induction m with
  | nil => rfl
  | cons kv rest ih =>
    have hk : kv.1 ≠ k := h kv (List.mem_cons_self kv rest)
    simp only [alAppend, if_neg hk, List.cons_append]
    rw [ih (fun kv2 hm => h kv2 (List.mem_cons_of_mem kv hm))]

/-- First validator loop: with nonempty, globally distinct ids, no
duplicate-id issues are raised, the collected id list is the id column
of the containers, and every per-id parent list stays a singleton. -/
theorem vStep_fold (cs : List Container) :
    ∀ acc : List String × List String × List (String × List String),
      (∀ c ∈ cs, c.id ≠ "") →
      (acc.2.1 ++ cs.map Container.id).Nodup →
      (∀ kv ∈ acc.2.2, kv.1 ∈ acc.2.1) →
      (∀ kv ∈ acc.2.2, kv.2.length ≤ 1) →
      (cs.foldl vStep acc).1 = acc.1
      ∧ (cs.foldl vStep acc).2.1 = acc.2.1 ++ cs.map Container.id
      ∧ (∀ kv ∈ (cs.foldl vStep acc).2.2, kv.2.length ≤ 1) := by
  induction cs with
  | nil =>
    intro acc _ _ _ h4
    exact ⟨rfl, by simp, h4⟩
  | cons c cs ih =>
    intro acc h1 h2 h3 h4
    have hcne : c.id ≠ "" := h1 c (List.mem_cons_self c cs)
    have hnotin : c.id ∉ acc.2.1 := by
      intro hin
      have hd := (List.nodup_append.mp (by simpa using h2)).2.2
      exact hd hin (List.mem_cons_self _ _)
    have hstep : vStep acc c
        = (acc.1, acc.2.1 ++ [c.id],
           if truthy c.parent then
             alAppend c.id (c.parent.getD "") acc.2.2
           else acc.2.2) := by
      unfold vStep
      rw [if_pos (by simp [hcne])]
      rw [if_neg hnotin]
    rw [List.foldl_cons, hstep]
    have hkeys : ∀ kv ∈ (if truthy c.parent then
        alAppend c.id (c.parent.getD "") acc.2.2 else acc.2.2),
        kv.1 ∈ acc.2.1 ++ [c.id] := by
      split
      · rw [alAppend_not_mem _ _ _
          (fun kv hm hk => hnotin (by rw [← hk]; exact h3 kv hm))]
        intro kv hm
        rcases List.mem_append.mp hm with hm | hm
        · exact List.mem_append.mpr (Or.inl (h3 kv hm))
        · simp at hm
          simp [hm]
      · intro kv hm
        exact List.mem_append.mpr (Or.inl (h3 kv hm))
    have hlen : ∀ kv ∈ (if truthy c.parent then
        alAppend c.id (c.parent.getD "") acc.2.2 else acc.2.2),
        kv.2.length ≤ 1 := by
      split
      · rw [alAppend_not_mem _ _ _
          (fun kv hm hk => hnotin (by rw [← hk]; exact h3 kv hm))]
        intro kv hm
        rcases List.mem_append.mp hm with hm | hm
        · exact h4 kv hm
        · simp at hm
          simp [hm]
      · exact h4
    have := ih (acc.1, acc.2.1 ++ [c.id],
        if truthy c.parent then
          alAppend c.id (c.parent.getD "") acc.2.2 else acc.2.2)
      (fun c2 hm => h1 c2 (List.mem_cons_of_mem c hm))
      (by simpa using h2) hkeys hlen
    refine ⟨this.1, ?_, this.2.2⟩
    rw [this.2.1]
    simp

/-- Second validator loop: singleton parent lists raise nothing. -/
theorem v2Step_fold (kvs : List (String × List String)) :
    ∀ b, (∀ kv ∈ kvs, kv.2.length ≤ 1) → kvs.foldl v2Step b = b := by
  induction kvs with
  | nil => intro b _; rfl
  | cons kv rest ih =>
    intro b h
    rw [List.foldl_cons]
    have : v2Step b kv = b := by
      unfold v2Step
      rw [if_neg]
      simp only [Bool.and_eq_true, not_and, decide_eq_true_eq]
      intro hgt
      exact absurd hgt (by
        have := h kv (List.mem_cons_self kv rest)
        omega)
    rw [this]
    exact ih b (fun kv2 hm => h kv2 (List.mem_cons_of_mem kv hm))

/-- Third validator loop: containers whose parent is falsy or known
raise nothing. -/
theorem v3Step_fold (ids : List String) (cs : List Container) :
    ∀ b, (∀ c ∈ cs, ∀ p, c.parent = some p → p ≠ "" → p ∈ ids) →
      cs.foldl (v3Step ids) b = b := by
  induction cs with
  | nil => intro b _; rfl
  | cons c rest ih =>
    intro b h
    rw [List.foldl_cons]
    have hc : v3Step ids b c = b := by
      unfold v3Step
      rw [if_neg]
      simp only [Bool.and_eq_true, Bool.not_eq_true', decide_eq_false_iff_not,
        not_and]
      intro ht
      match hp : c.parent with
      | none => simp [truthy, hp] at ht
      | some p =>
        have hpne : p ≠ "" := by
          simp [truthy, hp] at ht
          exact ht
        have := h c (List.mem_cons_self c rest) p hp hpne
        simp [hp, this]
    rw [hc]
    exact ih b (fun c2 hm => h c2 (List.mem_cons_of_mem c hm))

/-- Claim C7: on a structure with exactly one container whose parent is
`Ghost`, where no container has id `Ghost` and no other defect exists
(all ids nonempty and pairwise distinct, every other parent is unset or
resolves), `validate_inventory` returns exactly one issue, and that
issue mentions `Ghost`; the validator is a pure function of the
structure, which it cannot mutate. -/
theorem claim_C7 (d : Doc) (A B : List Container) (g : Container)
    (hsplit : d.containers = A ++ g :: B)
    (hg : g.parent = some "Ghost")
    (hids : (d.containers.map Container.id).Nodup)
    (hne : ∀ c ∈ d.containers, c.id ≠ "")
    (hghost : ∀ c ∈ d.containers, c.id ≠ "Ghost")
    (hothers : ∀ c ∈ A ++ B, ∀ p, c.parent = some p → p ≠ "" →
      p ∈ d.containers.map Container.id) :
    validate_inventory d = [missingParentMsg g.id "Ghost"]
    ∧ ∃ x y, missingParentMsg g.id "Ghost" = x ++ "Ghost" ++ y := by
  have hp1 := vStep_fold d.containers ([], [], []) hne (by simpa using hids)
    (by intro kv hm; simp at hm) (by intro kv hm; simp at hm)
  constructor
  · unfold validate_inventory
    simp only []
    rw [hp1.1, hp1.2.1]
    rw [v2Step_fold _ _ hp1.2.2]
    simp only [List.nil_append]
    obtain ⟨I, hI⟩ : ∃ I, I = d.containers.map Container.id := ⟨_, rfl⟩
    rw [← hI]
    rw [hsplit, List.foldl_append, List.foldl_cons]
    have hGhostNotin : "Ghost" ∉ I := by
      rw [hI]
      intro hin
      obtain ⟨c, hc, hid⟩ := List.mem_map.mp hin
      exact hghost c hc hid
    have hA : A.foldl (v3Step I) [] = [] :=
      v3Step_fold _ A [] (fun c hm p hp hpne => by
        rw [hI]
        exact hothers c (List.mem_append.mpr (Or.inl hm)) p hp hpne)
    rw [hA]
    have hgstep : v3Step I [] g = [missingParentMsg g.id "Ghost"] := by
      unfold v3Step
      rw [if_pos]
      · simp [hg]
      · simp [truthy, hg, hGhostNotin]
    rw [hgstep]
    exact v3Step_fold _ B _ (fun c hm p hp hpne => by
      rw [hI]
      exact hothers c (List.mem_append.mpr (Or.inr hm)) p hp hpne)
  · exact ⟨"❌ " ++ g.id ++ ": parent \u0027", "\u0027 not found",
      by simp [missingParentMsg, String.append_assoc]⟩

def c7doc : Doc :=
  { intro := "", numbering_scheme := "",
    containers := [mkContainer "X" (some "Ghost") "" []] }

/-- Witness for claim C7: one container `X` with parent `Ghost` yields
exactly the one issue naming `Ghost`. -/
theorem claim_C7_witness :
    validate_inventory c7doc
      = [missingParentMsg "X" "Ghost"]
    ∧ ∃ x y, missingParentMsg "X" "Ghost" = x ++ "Ghost" ++ y := by
  have h := claim_C7 c7doc [] [] (mkContainer "X" (some "Ghost") "" [])
    rfl rfl (by decide) (by decide) (by decide)
    (by intro c hm; simp at hm)
  exact h

/-!
## Claims C3 and C4: the Deduplicator
-/

theorem alLookup_alAppend_self {α β : Type} [DecidableEq α] (k : α) (v : β)
    (m : List (α × List β)) :
    alLookup k (alAppend k v m) = some ((alLookup k m).getD [] ++ [v]) := by
  induction m with
  | nil => simp [alAppend, alLookup]
  | cons kv rest ih =>
    by_cases h : kv.1 = k
    · simp [alAppend, alLookup, h]
    · simp [alAppend, alLookup, h, ih]

theorem alLookup_alAppend_ne {α β : Type} [DecidableEq α] {k k' : α}
    (v : β) (m : List (α × List β)) (h : k' ≠ k) :
    alLookup k (alAppend k' v m) = alLookup k m := by
  induction m with
  | nil => simp [alAppend, alLookup, h]
  | cons kv rest ih =>
    by_cases hk : kv.1 = k'
    · simp [alAppend, alLookup, hk, h, Ne.symm h]
    · by_cases hk2 : kv.1 = k <;>
        simp [alAppend, alLookup, hk, hk2, ih, h, Ne.symm h]

/-- Case analysis of one first-pass step: either nothing is recorded
(ids and entries unchanged), or line `i` is a candidate heading and its
entry is appended in lockstep to both accumulators. -/
theorem fpStep_cases (i : Nat) (flag : Bool) (line : String)
    (ids : List (String × List Nat)) (es : List (Nat × String × String)) :
    ((fpStep i flag line ids es).2.1 = ids
      ∧ (fpStep i flag line ids es).2.2 = es)
    ∨ ∃ cid, candId (pyStrip (strDrop line 3)) = some cid ∧ cid ≠ ""
        ∧ (fpStep i flag line ids es).2.1 = alAppend cid i ids
        ∧ (fpStep i flag line ids es).2.2
          = es ++ [(i, cid, pyStrip (strDrop line 3))] := by
  unfold fpStep
  by_cases h1 : (pyStartsWith line "# Intro" ||
      pyStartsWith line "# Nummereringsregime") = true
  · rw [if_pos h1]
    exact Or.inl ⟨rfl, rfl⟩
  · rw [if_neg h1]
    simp only []
    by_cases h2 : (pyStartsWith line "## " &&
        !(pyStartsWith line "### ")) = true
    · rw [if_pos h2]
      by_cases h3 : (if (pyStartsWith line "# " &&
          !(pyStartsWith line "## ")) = true then false else flag) = true
      · rw [if_pos h3]
        exact Or.inl ⟨rfl, rfl⟩
      · rw [if_neg h3]
        by_cases h4 : (hasInfix line "Oversikt over ting lagret" ||
            hasInfix line "Oversikt over boksene") = true
        · rw [if_pos h4]
          exact Or.inl ⟨rfl, rfl⟩
        · rw [if_neg h4]
          match hc : candId (pyStrip (strDrop line 3)) with
          | some cid =>
            by_cases h5 : cid = ""
            · refine Or.inl ⟨?_, ?_⟩ <;> simp [if_pos h5]
            · refine Or.inr ⟨cid, rfl, h5, ?_, ?_⟩ <;> simp [if_neg h5]
          | none =>
            refine Or.inl ⟨?_, ?_⟩ <;> simp
    · rw [if_neg h2]
      exact Or.inl ⟨rfl, rfl⟩

theorem fpAux_cons (i : Nat) (flag : Bool) (line : String)
    (rest : List String) (ids : List (String × List Nat))
    (es : List (Nat × String × String)) :
    fpAux i flag (line :: rest) ids es
      = fpAux (i + 1) (fpStep i flag line ids es).1 rest
          (fpStep i flag line ids es).2.1
          (fpStep i flag line ids es).2.2 := rfl

/-- Every entry recorded by the first pass either was already in the
accumulator or describes a candidate heading of the processed suffix:
its heading is the stripped tail of the line at its index, and its
tentative id is the (truthy) result of `candId` on that heading. -/
theorem fpAux_entries_spec :
    ∀ (lines : List String) (i : Nat) (flag : Bool)
      (ids : List (String × List Nat)) (es : List (Nat × String × String)),
      ∀ e ∈ (fpAux i flag lines ids es).2,
        e ∈ es ∨ (i ≤ e.1 ∧ ∃ line, lines.get? (e.1 - i) = some line
          ∧ e.2.2 = pyStrip (strDrop line 3)
          ∧ candId e.2.2 = some e.2.1 ∧ e.2.1 ≠ "") := by
  intro lines
  induction lines with
  | nil => intro i flag ids es e he; exact Or.inl he
  | cons line rest ih =>
    intro i flag ids es e he
    rw [fpAux_cons] at he
    have h2 := ih (i + 1) (fpStep i flag line ids es).1
      (fpStep i flag line ids es).2.1 (fpStep i flag line ids es).2.2 e he
    rcases h2 with h2 | ⟨hle, l2, hget, hrest⟩
    · rcases fpStep_cases i flag line ids es with ⟨_, hes⟩ |
        ⟨cid, hcand, hz, _, hes⟩
      · rw [hes] at h2
        exact Or.inl h2
      · rw [hes] at h2
        rcases List.mem_append.mp h2 with h2 | h2
        · exact Or.inl h2
        · simp only [List.mem_singleton] at h2
          refine Or.inr ⟨by rw [h2], line, ?_, ?_, ?_, ?_⟩
          · rw [h2]
            simp
          · rw [h2]
          · rw [h2]
            exact hcand
          · rw [h2]
            exact hz
    · refine Or.inr ⟨le_trans (Nat.le_succ _) hle, l2, ?_, hrest⟩
      have : e.1 - i = (e.1 - (i + 1)) + 1 := by omega
      rw [this]
      exact hget

/-- The recorded entry indices are strictly increasing (hence pairwise
distinct). -/
theorem fpAux_pairwise :
    ∀ (lines : List String) (i : Nat) (flag : Bool)
      (ids : List (String × List Nat)) (es : List (Nat × String × String)),
      (∀ e ∈ es, e.1 < i) →
      List.Pairwise (fun a b : Nat × String × String => a.1 < b.1) es →
      (∀ e ∈ (fpAux i flag lines ids es).2, e.1 < i + lines.length)
      ∧ List.Pairwise (fun a b : Nat × String × String => a.1 < b.1)
          (fpAux i flag lines ids es).2 := by
  intro lines
  induction lines with
  | nil =>
    intro i flag ids es h1 h2
    exact ⟨fun e he => lt_of_lt_of_le (h1 e he) (by simp), h2⟩
  | cons line rest ih =>
    intro i flag ids es h1 h2
    rw [fpAux_cons]
    have hstep : (∀ e ∈ (fpStep i flag line ids es).2.2, e.1 < i + 1)
        ∧ List.Pairwise (fun a b : Nat × String × String => a.1 < b.1)
            (fpStep i flag line ids es).2.2 := by
      rcases fpStep_cases i flag line ids es with ⟨_, hes⟩ |
        ⟨cid, _, _, _, hes⟩ <;> rw [hes]
      · exact ⟨fun e he => lt_trans (h1 e he) (Nat.lt_succ_self _), h2⟩
      · constructor
        · intro e he
          rcases List.mem_append.mp he with he | he
          · exact lt_trans (h1 e he) (Nat.lt_succ_self _)
          · simp only [List.mem_singleton] at he
            rw [he]
            exact Nat.lt_succ_self _
        · rw [List.pairwise_append]
          refine ⟨h2, List.pairwise_singleton _ _, ?_⟩
          intro a ha b hb
          simp only [List.mem_singleton] at hb
          rw [hb]
          exact h1 a ha
    have := ih (i + 1) (fpStep i flag line ids es).1
      (fpStep i flag line ids es).2.1 (fpStep i flag line ids es).2.2
      hstep.1 hstep.2
    refine ⟨fun e he => ?_, this.2⟩
    have := this.1 e he
    simp only [List.length_cons]
    omega

/-- The id-groups map and the entries list stay consistent: the group of
a tentative id is exactly the (ordered) list of entry indices carrying
that id. -/
theorem fpAux_ids :
    ∀ (lines : List String) (i : Nat) (flag : Bool)
      (ids : List (String × List Nat)) (es : List (Nat × String × String)),
      (∀ cid, (alLookup cid ids).getD []
        = (es.filter (fun e => e.2.1 = cid)).map (fun e => e.1)) →
      ∀ cid, (alLookup cid (fpAux i flag lines ids es).1).getD []
        = ((fpAux i flag lines ids es).2.filter
            (fun e => e.2.1 = cid)).map (fun e => e.1) := by
  intro lines
  induction lines with
  | nil => intro i flag ids es h cid; exact h cid
  | cons line rest ih =>
    intro i flag ids es h cid
    rw [fpAux_cons]
    refine ih (i + 1) _ _ _ ?_ cid
    intro cid2
    rcases fpStep_cases i flag line ids es with ⟨hids, hes⟩ |
      ⟨c, _, _, hids, hes⟩
    · rw [hids, hes]
      exact h cid2
    · rw [hids, hes, List.filter_append, List.map_append]
      by_cases hcc : c = cid2
      · rw [hcc, alLookup_alAppend_self, Option.getD_some, h cid2]
        simp [hcc]
      · rw [alLookup_alAppend_ne _ _ hcc, h cid2]
        have : List.filter (fun e => decide (e.2.1 = cid2))
            [(i, c, pyStrip (strDrop line 3))] = [] := by
          simp [hcc]
        rw [this]
        simp

/-!
## Metadata-extraction facts used by the Deduplicator claims
-/

theorem dget_dinsert_self (k : String) (v : MVal) (m : Meta) :
    dget k (dinsert k v m) = some v := by
  induction m with
  | nil => simp [dinsert, dget]
  | cons kv rest ih =>
    by_cases h : kv.1 = k
    · simp [dinsert, dget, h]
    · simp [dinsert, dget, h, ih]

theorem dget_dinsert_ne {k k' : String} (v : MVal) (m : Meta)
    (h : k' ≠ k) : dget k (dinsert k' v m) = dget k m := by
  induction m with
  | nil => simp [dinsert, dget, h]
  | cons kv rest ih =>
    by_cases hk : kv.1 = k'
    · simp [dinsert, dget, hk, h, Ne.symm h]
    · by_cases hk2 : kv.1 = k <;>
        simp [dinsert, dget, hk, hk2, ih, h, Ne.symm h]

/-- A successful match's value group is a nonempty run of `[^)\s]`
characters. -/
theorem matchAt_value (cs k v r : List Char)
    (h : matchAt cs = some (k, v, r)) :
    v ≠ [] ∧ ∀ c ∈ v, valChar c = true := by
  unfold matchAt at h
  simp only [] at h
  split_ifs at h
  all_goals try exact Option.noConfusion h
  all_goals
    (have h' := Option.some.inj h
     have hv2 : _ = v := congrArg
       (fun p : List Char × List Char × List Char => p.2.1) h'
     simp only [] at hv2
     subst hv2
     refine ⟨?_, fun c hc => List.mem_takeWhile_imp hc⟩
     intro hemp
     simp_all)

/-- All values produced by the scan are nonempty `[^)\s]` runs. -/
theorem scanMetaF_values :
    ∀ (fuel : Nat) (cs : List Char), ∀ kv ∈ (scanMetaF fuel cs).1,
      kv.2 ≠ [] ∧ ∀ c ∈ kv.2, valChar c = true := by
  intro fuel
  induction fuel with
  | zero =>
    intro cs kv hm
    cases cs with
    | nil => simp [scanMetaF] at hm
    | cons c t => simp [scanMetaF] at hm
  | succ fuel ih =>
    intro cs kv hm
    cases cs with
    | nil => simp [scanMetaF] at hm
    | cons c t =>
      unfold scanMetaF at hm
      revert hm
      match hmm : matchAt (c :: t) with
      | some (k, v, r) =>
        intro hm
        simp only [List.mem_cons] at hm
        rcases hm with hm | hm
        · rw [hm]
          exact matchAt_value (c :: t) k v r hmm
        · exact ih r kv hm
      | none =>
        intro hm
        exact ih t kv hm

/-- `strip` of a list with no whitespace anywhere is the identity. -/
theorem pyStripL_of_nospace (v : List Char)
    (h : ∀ c ∈ v, pySpace c = false) : pyStripL v = v := by
  unfold pyStripL
  have h1 : v.dropWhile pySpace = v := by
    cases v with
    | nil => rfl
    | cons c t =>
      rw [List.dropWhile_cons_of_neg]
      simp [h c (List.mem_cons_self c t)]
  rw [h1]
  have h2 : v.reverse.dropWhile pySpace = v.reverse := by
    cases hv : v.reverse with
    | nil => rfl
    | cons c t =>
      rw [List.dropWhile_cons_of_neg]
      have : c ∈ v := by
        rw [← List.mem_reverse, hv]
        exact List.mem_cons_self c t
      simp [h c this]
  rw [h2, List.reverse_reverse]

theorem valChar_nospace {c : Char} (h : valChar c = true) :
    pySpace c = false := by
  unfold valChar at h
  simp only [Bool.and_eq_true, Bool.not_eq_true'] at h
  exact h.2

/-- The scan on `ID:` followed by a value run finds the match. -/
theorem matchAt_idPrefix (u t : List Char) (hu : u ≠ [])
    (hv : ∀ c ∈ u, valChar c = true) :
    ∃ r, matchAt ('I' :: 'D' :: ':' :: (u ++ t))
      = some (['I', 'D'], u ++ t.takeWhile valChar, r) := by
  have hw1 : wordChar 'I' = true := by decide
  have hw2 : wordChar 'D' = true := by decide
  have hw3 : wordChar ':' = false := by decide
  have h3 : List.takeWhile valChar (u ++ t)
      = u ++ List.takeWhile valChar t := List.takeWhile_append_of_pos hv
  have h4 : (u ++ List.takeWhile valChar t).isEmpty = false := by
    cases u with
    | nil => exact absurd rfl hu
    | cons a l => rfl
  refine ⟨if (List.dropWhile valChar (u ++ t)).head? = some ')' then
      (List.dropWhile valChar (u ++ t)).tail
    else List.dropWhile valChar (u ++ t), ?_⟩
  simp [matchAt, List.takeWhile_cons, List.dropWhile_cons, hw1, hw2, hw3,
    h3, h4]

/-- Folding further scan pairs (with nonempty whitespace-free values)
preserves the presence of a truthy `id` key. -/
theorem foldl_metaStep_id (ps : List (List Char × List Char))
    (hps : ∀ kv ∈ ps, kv.2 ≠ [] ∧ ∀ c ∈ kv.2, valChar c = true) :
    ∀ acc : Meta × List String,
      (∃ w, dget "id" acc.1 = some (MVal.s w) ∧ w ≠ "") →
      ∃ w, dget "id" (ps.foldl metaStep acc).1 = some (MVal.s w)
        ∧ w ≠ "" := by
  induction ps with
  | nil => intro acc h; exact h
  | cons p ps ih =>
    intro acc h
    rw [List.foldl_cons]
    refine ih (fun kv hm => hps kv (List.mem_cons_of_mem p hm))
      (metaStep acc p) ?_
    unfold metaStep
    simp only []
    split_ifs with htag
    · exact h
    · by_cases hid : String.mk (p.1.map Char.toLower) = "id"
      · refine ⟨pyStrip (String.mk p.2), ?_, ?_⟩
        · rw [hid]
          exact dget_dinsert_self _ _ _
        · have hp := hps p (List.mem_cons_self p ps)
          unfold pyStrip
          rw [pyStripL_of_nospace _ (fun c hc => valChar_nospace (hp.2 c hc))]
          intro he
          have : p.2 = [] := congrArg String.data he
          exact hp.1 this
      · obtain ⟨w, hw, hwne⟩ := h
        exact ⟨w, by rw [dget_dinsert_ne _ _ hid]; exact hw, hwne⟩

/-- Any text of the shape `ID:` + nonempty `[^)\s]` run + anything has a
truthy `id` in its extracted metadata. -/
theorem extract_id_prefix (u t : List Char) (hu : u ≠ [])
    (hv : ∀ c ∈ u, valChar c = true) :
    truthy (getS "id"
      (extract_metadata (String.mk ('I' :: 'D' :: ':' :: (u ++ t)))).1)
      = true := by
  obtain ⟨r, hr⟩ := matchAt_idPrefix u t hu hv
  have hscan : scanMeta ('I' :: 'D' :: ':' :: (u ++ t))
      = ((['I', 'D'], u ++ t.takeWhile valChar) :: (scanMetaF
          ((u ++ t).length + 2) r).1,
        (scanMetaF ((u ++ t).length + 2) r).2) := by
    show scanMetaF (('I' :: 'D' :: ':' :: (u ++ t)).length)
      ('I' :: 'D' :: ':' :: (u ++ t)) = _
    rw [show ('I' :: 'D' :: ':' :: (u ++ t)).length
      = ((u ++ t).length + 2) + 1 from rfl]
    rw [scanMetaF]
    rw [hr]
  have hvals : ∀ kv ∈ (scanMetaF ((u ++ t).length + 2) r).1,
      kv.2 ≠ [] ∧ ∀ c ∈ kv.2, valChar c = true :=
    scanMetaF_values _ _
  have hvnonempty : u ++ t.takeWhile valChar ≠ [] := by
    cases u with
    | nil => exact absurd rfl hu
    | cons a l => simp
  have hvval : ∀ c ∈ u ++ t.takeWhile valChar, valChar c = true := by
    intro c hc
    rcases List.mem_append.mp hc with hc | hc
    · exact hv c hc
    · exact List.mem_takeWhile_imp hc
  unfold extract_metadata
  simp only []
  rw [hscan]
  rw [List.foldl_cons]
  have hstep1 : metaStep ([], []) (['I', 'D'], u ++ t.takeWhile valChar)
      = ([("id", MVal.s (pyStrip (String.mk (u ++ t.takeWhile valChar))))],
         []) := by
    unfold metaStep
    simp only []
    rw [if_neg (by decide)]
    rw [show String.mk (List.map Char.toLower ['I', 'D']) = "id" from
      by decide]
    rfl
  rw [hstep1]
  have hQ : ∃ w, dget "id"
      (((scanMetaF ((u ++ t).length + 2) r).1).foldl metaStep
        ([("id", MVal.s (pyStrip (String.mk (u ++ t.takeWhile valChar))))],
         [])).1 = some (MVal.s w) ∧ w ≠ "" := by
    refine foldl_metaStep_id _ hvals _ ⟨pyStrip
      (String.mk (u ++ t.takeWhile valChar)), by simp [dget], ?_⟩
    unfold pyStrip
    rw [pyStripL_of_nospace _ (fun c hc => valChar_nospace (hvval c hc))]
    intro he
    exact hvnonempty (congrArg String.data he)
  obtain ⟨w, hw, hwne⟩ := hQ
  split_ifs with htags
  · unfold getS
    rw [hw]
    simp [truthy, hwne]
  · unfold getS
    rw [dget_dinsert_ne _ _ (show ("tags" : String) ≠ "id" by decide), hw]
    simp [truthy, hwne]

/-!
## Character facts about tentative ids and injected ids
-/

theorem isUpper_isAlphanum {c : Char} (h : c.isUpper = true) :
    c.isAlphanum = true := by
  simp [Char.isAlphanum, Char.isAlpha, h]

theorem isAlpha_isAlphanum {c : Char} (h : c.isAlpha = true) :
    c.isAlphanum = true := by
  simp [Char.isAlphanum, h]

theorem isDigit_isAlphanum {c : Char} (h : c.isDigit = true) :
    c.isAlphanum = true := by
  simp [Char.isAlphanum, h]

theorem isUpper_ne_space {c : Char} (h : c.isUpper = true) : c ≠ ' ' := by
  intro he
  rw [he] at h
  exact absurd h (by decide)

theorem isAlpha_ne_space {c : Char} (h : c.isAlpha = true) : c ≠ ' ' := by
  intro he
  rw [he] at h
  exact absurd h (by decide)

theorem isAlphanum_valChar {c : Char} (h : c.isAlphanum = true) :
    valChar c = true := by
  unfold valChar
  simp only [Bool.and_eq_true, Bool.not_eq_true']
  constructor
  · simp only [beq_eq_false_iff_ne, ne_eq]
    intro he
    rw [he] at h
    exact absurd h (by decide)
  · unfold pySpace
    simp only [Bool.or_eq_false_iff, beq_eq_false_iff_ne, ne_eq]
    refine ⟨⟨⟨⟨⟨?_, ?_⟩, ?_⟩, ?_⟩, ?_⟩, ?_⟩ <;>
      (intro he; rw [he] at h; exact absurd h (by decide))

theorem isAlphanum_ne_hyphen {c : Char} (h : c.isAlphanum = true) :
    c ≠ '-' := by
  intro he
  rw [he] at h
  exact absurd h (by decide)

theorem digits1_chars (cs d rest : List Char)
    (h : digits1 cs = some (d, rest)) :
    d ≠ [] ∧ ∀ c ∈ d, c.isDigit = true := by
  unfold digits1 at h
  simp only [] at h
  split_ifs at h with he
  have hd : cs.takeWhile Char.isDigit = d :=
    congrArg Prod.fst (Option.some.inj h)
  subst hd
  exact ⟨by simpa using he, fun c hc => List.mem_takeWhile_imp hc⟩

/-- Shape of a shorthand-pattern match: every character is alphanumeric
or a space, and some character is a non-space alphanumeric. -/
def goodAlt (r : List Char) : Prop :=
  (∀ c ∈ r, c.isAlphanum = true ∨ c = ' ')
  ∧ ∃ c0 ∈ r, c0.isAlphanum = true ∧ c0 ≠ ' '

theorem altUpperDigits_good (cs r : List Char)
    (h : altUpperDigits cs = some r) : goodAlt r := by
  unfold altUpperDigits at h
  match cs with
  | [] => exact Option.noConfusion h
  | c :: t =>
    simp only [] at h
    split_ifs at h with hu
    · cases hd : digits1 t with
      | some p =>
        rw [hd] at h
        simp only [Option.map_some'] at h
        obtain ⟨d, rest⟩ := p
        have hr : c :: d = r := Option.some.inj h
        subst hr
        obtain ⟨_, hdig⟩ := digits1_chars t d rest hd
        refine ⟨?_, c, List.mem_cons_self _ _,
          isUpper_isAlphanum hu, isUpper_ne_space hu⟩
        intro x hx
        rcases List.mem_cons.mp hx with hx | hx
        · exact Or.inl (hx ▸ isUpper_isAlphanum hu)
        · exact Or.inl (isDigit_isAlphanum (hdig x hx))
      | none =>
        rw [hd] at h
        exact Option.noConfusion h

theorem altBoxN_good (cs r : List Char) (h : altBoxN cs = some r) :
    goodAlt r := by
  unfold altBoxN at h
  split_ifs at h with hp
  cases hd : digits1 (cs.drop 4) with
  | some p =>
    rw [hd] at h
    simp only [Option.map_some'] at h
    obtain ⟨d, rest⟩ := p
    have hr : 'B' :: 'o' :: 'x' :: ' ' :: d = r := Option.some.inj h
    subst hr
    obtain ⟨_, hdig⟩ := digits1_chars _ d rest hd
    refine ⟨?_, 'B', List.mem_cons_self _ _, by decide, by decide⟩
    intro x hx
    rcases List.mem_cons.mp hx with hx | hx
    · exact Or.inl (by rw [hx]; decide)
    rcases List.mem_cons.mp hx with hx | hx
    · exact Or.inl (by rw [hx]; decide)
    rcases List.mem_cons.mp hx with hx | hx
    · exact Or.inl (by rw [hx]; decide)
    rcases List.mem_cons.mp hx with hx | hx
    · exact Or.inr hx
    · exact Or.inl (isDigit_isAlphanum (hdig x hx))
  | none =>
    rw [hd] at h
    exact Option.noConfusion h

theorem upTake_good (k : Nat) (cs r : List Char) (hk : k ≠ 0)
    (h : upTake k cs = some r) : goodAlt r := by
  unfold upTake at h
  simp only [] at h
  split_ifs at h with hg
  cases hd : digits1 (cs.drop k) with
  | some p =>
    rw [hd] at h
    simp only [Option.map_some'] at h
    obtain ⟨d, rest⟩ := p
    have hr : cs.take k ++ d = r := Option.some.inj h
    subst hr
    obtain ⟨_, hdig⟩ := digits1_chars _ d rest hd
    simp only [Bool.and_eq_true, decide_eq_true_eq, List.all_eq_true]
      at hg
    have hupper : ∀ c ∈ cs.take k, c.isUpper = true := by
      intro c hc
      simpa using hg.2 c hc
    have hne : cs.take k ≠ [] := by
      intro he
      rw [he] at hg
      exact hk hg.1.symm
    obtain ⟨c0, t0, hct⟩ := List.exists_cons_of_ne_nil hne
    have hc0u : c0.isUpper = true :=
      hupper c0 (by rw [hct]; exact List.mem_cons_self _ _)
    refine ⟨?_, c0, ?_, isUpper_isAlphanum hc0u, isUpper_ne_space hc0u⟩
    · intro x hx
      rcases List.mem_append.mp hx with hx | hx
      · exact Or.inl (isUpper_isAlphanum (hupper x hx))
      · exact Or.inl (isDigit_isAlphanum (hdig x hx))
    · rw [hct]
      exact List.mem_append.mpr (Or.inl (List.mem_cons_self _ _))
  | none =>
    rw [hd] at h
    exact Option.noConfusion h

theorem altUpper13_good (cs r : List Char) (h : altUpper13 cs = some r) :
    goodAlt r := by
  unfold altUpper13 at h
  cases h3 : upTake 3 cs with
  | some r3 =>
    rw [h3] at h
    exact (Option.some.inj h) ▸ upTake_good 3 cs r3 (by decide) h3
  | none =>
    rw [h3] at h
    cases h2 : upTake 2 cs with
    | some r2 =>
      rw [h2] at h
      exact (Option.some.inj h) ▸ upTake_good 2 cs r2 (by decide) h2
    | none =>
      rw [h2] at h
      exact upTake_good 1 cs r (by decide) h

theorem altSeb_good (cs r : List Char) (h : altSeb cs = some r) :
    goodAlt r := by
  unfold altSeb at h
  split_ifs at h with hp
  cases hd : digits1 (cs.drop 3) with
  | some p =>
    rw [hd] at h
    simp only [Option.map_some'] at h
    obtain ⟨d, rest⟩ := p
    have hr : 'S' :: 'e' :: 'b' :: d = r := Option.some.inj h
    subst hr
    obtain ⟨_, hdig⟩ := digits1_chars _ d rest hd
    refine ⟨?_, 'S', List.mem_cons_self _ _, by decide, by decide⟩
    intro x hx
    rcases List.mem_cons.mp hx with hx | hx
    · exact Or.inl (by rw [hx]; decide)
    rcases List.mem_cons.mp hx with hx | hx
    · exact Or.inl (by rw [hx]; decide)
    rcases List.mem_cons.mp hx with hx | hx
    · exact Or.inl (by rw [hx]; decide)
    · exact Or.inl (isDigit_isAlphanum (hdig x hx))
  | none =>
    rw [hd] at h
    exact Option.noConfusion h

theorem altWordDigits_good (cs r : List Char)
    (h : altWordDigits cs = some r) : goodAlt r := by
  unfold altWordDigits at h
  simp only [] at h
  split_ifs at h with he
  have hr : cs.takeWhile Char.isAlpha
      ++ (cs.drop (cs.takeWhile Char.isAlpha).length).takeWhile
          Char.isDigit = r := Option.some.inj h
  subst hr
  have hne : cs.takeWhile Char.isAlpha ≠ [] := by simpa using he
  obtain ⟨c0, t0, hct⟩ := List.exists_cons_of_ne_nil hne
  have halpha : ∀ c ∈ cs.takeWhile Char.isAlpha, c.isAlpha = true :=
    fun c hc => List.mem_takeWhile_imp hc
  have hc0 : c0.isAlpha = true :=
    halpha c0 (by rw [hct]; exact List.mem_cons_self _ _)
  refine ⟨?_, c0, ?_, isAlpha_isAlphanum hc0, isAlpha_ne_space hc0⟩
  · intro x hx
    rcases List.mem_append.mp hx with hx | hx
    · exact Or.inl (isAlpha_isAlphanum (halpha x hx))
    · exact Or.inl (isDigit_isAlphanum (List.mem_takeWhile_imp hx))
  · rw [hct]
    exact List.mem_append.mpr (Or.inl (List.mem_cons_self _ _))

/-- The tentative id produced by the shorthand patterns is a nonempty
all-alphanumeric string (in particular it contains no hyphen and no
space). -/
theorem tentativeId_chars (h : String) (cid : String)
    (hc : tentativeId h = some cid) :
    cid.data ≠ [] ∧ ∀ c ∈ cid.data, c.isAlphanum = true := by
  unfold tentativeId at hc
  simp only [] at hc
  obtain ⟨r, hr, hcid⟩ := Option.map_eq_some'.mp hc
  have hgood : goodAlt r := by
    revert hr
    cases h1 : altUpperDigits h.data with
    | some r1 =>
      intro hr
      exact (Option.some.inj hr) ▸ altUpperDigits_good _ _ h1
    | none =>
      cases h2 : altBoxN h.data with
      | some r2 =>
        intro hr
        exact (Option.some.inj hr) ▸ altBoxN_good _ _ h2
      | none =>
        cases h3 : altUpper13 h.data with
        | some r3 =>
          intro hr
          exact (Option.some.inj hr) ▸ altUpper13_good _ _ h3
        | none =>
          cases h4 : altSeb h.data with
          | some r4 =>
            intro hr
            exact (Option.some.inj hr) ▸ altSeb_good _ _ h4
          | none =>
            intro hr
            exact altWordDigits_good _ _ hr
  obtain ⟨hall, c0, hc0, hc0a, hc0s⟩ := hgood
  have hdata : cid.data = r.filter (fun c => !(c == ' ')) := by
    rw [← hcid]
  constructor
  · rw [hdata]
    intro hemp
    have : c0 ∈ r.filter (fun c => !(c == ' ')) :=
      List.mem_filter.mpr ⟨hc0, by simpa using hc0s⟩
    rw [hemp] at this
    exact absurd this (List.not_mem_nil c0)
  · intro c hcm
    rw [hdata] at hcm
    obtain ⟨hcr, hcs⟩ := List.mem_filter.mp hcm
    rcases hall c hcr with ha | ha
    · exact ha
    · rw [ha] at hcs
      exact absurd hcs (by decide)

/-!
## The rewritten heading line differs from the original

If a candidate heading line were equal to its own rewriting
`## ID:<uid> <heading>`, the stripped tail of the line would contain
itself strictly, which is impossible by a length count.
-/

theorem head_dropWhile_false {α : Type} (p : α → Bool) :
    ∀ (l : List α) (c : α), (l.dropWhile p).head? = some c → p c = false := by
  intro l
  induction l with
  | nil => intro c h; exact Option.noConfusion h
  | cons x t ih =>
    intro c h
    by_cases hp : p x = true
    · rw [List.dropWhile_cons_of_pos hp] at h
      exact ih c h
    · rw [List.dropWhile_cons_of_neg hp] at h
      have : x = c := by simpa using h
      rw [← this]
      exact Bool.not_eq_true _ ▸ hp

theorem pyStripL_ne_nil (c : Char) (t : List Char) (hc : pySpace c = false) :
    pyStripL (c :: t) ≠ [] := by
  unfold pyStripL
  intro h
  rw [List.reverse_eq_nil_iff] at h
  rw [List.dropWhile_eq_nil_iff] at h
  have hmem : c ∈ (List.dropWhile pySpace (c :: t)).reverse := by
    rw [List.dropWhile_cons_of_neg (by simp [hc])]
    simp
  rw [h c hmem] at hc
  exact Bool.noConfusion hc

theorem pyStripL_reverse_head (v : List Char) (c : Char)
    (h : (pyStripL v).reverse.head? = some c) : pySpace c = false := by
  unfold pyStripL at h
  rw [List.reverse_reverse] at h
  exact head_dropWhile_false pySpace _ c h

theorem data_append (a b : String) : (a ++ b).data = a.data ++ b.data := rfl

theorem strEq_of_data {a b : String} (h : a.data = b.data) : a = b := by
  cases a
  cases b
  exact congrArg String.mk h

/-- A stripped string cannot equal `ID:<uid> ` prepended to itself. -/
theorem strip_id_list (ud hd : List Char)
    (hh : hd = pyStripL ('I' :: 'D' :: ':' :: (ud ++ ' ' :: hd))) :
    False := by
  have hne : hd ≠ [] := by
    intro h0
    rw [h0] at hh
    exact pyStripL_ne_nil 'I' _ (by decide) hh.symm
  obtain ⟨c, t, hct⟩ : ∃ c t, hd.reverse = c :: t := by
    cases hr : hd.reverse with
    | nil => exact absurd (by simpa using hr) hne
    | cons c t => exact ⟨c, t, rfl⟩
  have hcns : pySpace c = false := by
    apply pyStripL_reverse_head ('I' :: 'D' :: ':' :: (ud ++ ' ' :: hd)) c
    rw [← hh, hct]
    rfl
  have h1 : List.dropWhile pySpace ('I' :: 'D' :: ':' :: (ud ++ ' ' :: hd))
      = 'I' :: 'D' :: ':' :: (ud ++ ' ' :: hd) := by
    rw [List.dropWhile_cons_of_neg (by decide)]
  have hwr : ('I' :: 'D' :: ':' :: (ud ++ ' ' :: hd)).reverse
      = hd.reverse ++ ([' '] ++ ud.reverse ++ [':', 'D', 'I']) := by
    simp
  have h2 : List.dropWhile pySpace
        (('I' :: 'D' :: ':' :: (ud ++ ' ' :: hd)).reverse)
      = ('I' :: 'D' :: ':' :: (ud ++ ' ' :: hd)).reverse := by
    rw [hwr, hct, List.cons_append,
      List.dropWhile_cons_of_neg (by simp [hcns])]
  have h3 : pyStripL ('I' :: 'D' :: ':' :: (ud ++ ' ' :: hd))
      = 'I' :: 'D' :: ':' :: (ud ++ ' ' :: hd) := by
    unfold pyStripL
    rw [h1, h2, List.reverse_reverse]
  rw [h3] at hh
  have hlen := congrArg List.length hh
  simp [List.length_append] at hlen
  omega

/-!
## Structure of the second pass of `add_container_id_prefixes`
-/

/-- The second-pass fold on the collected candidate headings. -/
def spRun (lines : List String) : DedupRes :=
  (firstPass lines).2.foldl (spStep (firstPass lines).1)
    { changes := 0, dup_map := [], out := lines, rewrites := [] }

theorem acip_changes (lines : List String) :
    (add_container_id_prefixes lines).changes = (spRun lines).changes := rfl

theorem acip_rewrites (lines : List String) :
    (add_container_id_prefixes lines).rewrites = (spRun lines).rewrites := rfl

theorem acip_out (lines : List String) :
    (add_container_id_prefixes lines).out
      = if 0 < (spRun lines).changes then (spRun lines).out else lines := rfl

/-- A candidate heading that already carries a truthy explicit `ID:` tag
only updates `dup_map`. -/
theorem spStep_expl (ids : List (String × List Nat)) (r : DedupRes)
    (e : Nat × String × String)
    (h : truthy (getS "id" (extract_metadata e.2.2).1) = true) :
    (spStep ids r e).changes = r.changes
    ∧ (spStep ids r e).out = r.out
    ∧ (spStep ids r e).rewrites = r.rewrites := by
  unfold spStep
  simp only []
  rw [if_pos h]
  exact ⟨rfl, rfl, rfl⟩

/-- A candidate heading without a truthy explicit `ID:` tag is rewritten:
the change counter is bumped, the line at its index is replaced, and the
`(index, injected id)` pair is recorded. -/
theorem spStep_nexpl (ids : List (String × List Nat)) (r : DedupRes)
    (e : Nat × String × String)
    (h : truthy (getS "id" (extract_metadata e.2.2).1) = false) :
    (spStep ids r e).changes = r.changes + 1
    ∧ (spStep ids r e).out
        = r.out.set e.1 (rewriteLine (uidOf ids e.1 e.2.1) e.2.2)
    ∧ (spStep ids r e).rewrites
        = r.rewrites ++ [(e.1, uidOf ids e.1 e.2.1)] := by
  unfold spStep
  simp only []
  rw [if_neg (by simp [h])]
  exact ⟨rfl, rfl, rfl⟩

/-- If every collected entry is explicit, the second pass changes
nothing. -/
theorem spFold_explicit (ids : List (String × List Nat)) :
    ∀ (es : List (Nat × String × String)) (r : DedupRes),
      (∀ e ∈ es, truthy (getS "id" (extract_metadata e.2.2).1) = true) →
      (es.foldl (spStep ids) r).changes = r.changes
      ∧ (es.foldl (spStep ids) r).out = r.out := by
  intro es
  induction es with
  | nil => intro r _; exact ⟨rfl, rfl⟩
  | cons e rest ih =>
    intro r hall
    rw [List.foldl_cons]
    obtain ⟨h1, h2, _⟩ := spStep_expl ids r e (hall e (List.mem_cons_self e rest))
    obtain ⟨h3, h4⟩ := ih (spStep ids r e)
      (fun x hx => hall x (List.mem_cons_of_mem e hx))
    exact ⟨h3.trans h1, h4.trans h2⟩

theorem spStep_out_length (ids : List (String × List Nat)) (r : DedupRes)
    (e : Nat × String × String) :
    (spStep ids r e).out.length = r.out.length := by
  cases h : truthy (getS "id" (extract_metadata e.2.2).1) with
  | false => rw [(spStep_nexpl ids r e h).2.1, List.length_set]
  | true => rw [(spStep_expl ids r e h).2.1]

theorem spFold_out_length (ids : List (String × List Nat)) :
    ∀ (es : List (Nat × String × String)) (r : DedupRes),
      (es.foldl (spStep ids) r).out.length = r.out.length := by
  intro es
  induction es with
  | nil => intro r; rfl
  | cons e rest ih =>
    intro r
    rw [List.foldl_cons]
    exact (ih (spStep ids r e)).trans (spStep_out_length ids r e)

/-- The second pass never touches a line at an index below every
remaining entry index. -/
theorem spFold_get_lt (ids : List (String × List Nat)) :
    ∀ (es : List (Nat × String × String)) (r : DedupRes) (i : Nat),
      (∀ e ∈ es, i < e.1) →
      (es.foldl (spStep ids) r).out.get? i = r.out.get? i := by
  intro es
  induction es with
  | nil => intro r i _; rfl
  | cons e rest ih =>
    intro r i hlt
    rw [List.foldl_cons]
    rw [ih (spStep ids r e) i (fun x hx => hlt x (List.mem_cons_of_mem e hx))]
    cases h : truthy (getS "id" (extract_metadata e.2.2).1) with
    | false =>
      rw [(spStep_nexpl ids r e h).2.1]
      exact List.get?_set_ne _ _ (Nat.ne_of_gt (hlt e (List.mem_cons_self e rest)))
    | true => rw [(spStep_expl ids r e h).2.1]

/-- The recorded rewrites are exactly the non-explicit entries with their
injected ids, in entry order. -/
theorem spFold_rewrites (ids : List (String × List Nat)) :
    ∀ (es : List (Nat × String × String)) (r : DedupRes),
      (es.foldl (spStep ids) r).rewrites
        = r.rewrites ++ es.filterMap (fun e =>
            if truthy (getS "id" (extract_metadata e.2.2).1) = true then none
            else some (e.1, uidOf ids e.1 e.2.1)) := by
  intro es
  induction es with
  | nil => intro r; simp
  | cons e rest ih =>
    intro r
    rw [List.foldl_cons, ih (spStep ids r e), List.filterMap_cons]
    cases h : truthy (getS "id" (extract_metadata e.2.2).1) with
    | false =>
      rw [if_neg (by simp [h]), (spStep_nexpl ids r e h).2.2]
      simp
    | true =>
      rw [if_pos rfl, (spStep_expl ids r e h).2.2]

/-- A rewritten candidate line differs from the line it replaces: if they
were equal, the stripped heading would contain `ID:<uid> ` plus itself. -/
theorem rewriteLine_ne (uid line0 : String)
    (hhead : pyStrip (strDrop line0 3)
        = pyStrip (strDrop (rewriteLine uid (pyStrip (strDrop line0 3))) 3)) :
    False := by
  have hlit : "## ID:".data = ['#', '#', ' ', 'I', 'D', ':'] := by decide
  have hdata : (rewriteLine uid (pyStrip (strDrop line0 3))).data
      = '#' :: '#' :: ' ' :: 'I' :: 'D' :: ':'
        :: (uid.data ++ ' ' :: (pyStrip (strDrop line0 3)).data) := by
    show ((("## ID:" ++ uid) ++ " ") ++ pyStrip (strDrop line0 3)).data = _
    rw [data_append, data_append, data_append, hlit]
    simp
  have hd : (pyStrip (strDrop line0 3)).data
      = pyStripL ('I' :: 'D' :: ':'
          :: (uid.data ++ ' ' :: (pyStrip (strDrop line0 3)).data)) := by
    have h1 := congrArg String.data hhead
    have h2 : (pyStrip (strDrop (rewriteLine uid
        (pyStrip (strDrop line0 3))) 3)).data
        = pyStripL (List.drop 3
            (rewriteLine uid (pyStrip (strDrop line0 3))).data) := rfl
    rw [h2, hdata] at h1
    exact h1
  exact strip_id_list uid.data (pyStrip (strDrop line0 3)).data hd

/-- C4: `add_container_id_prefixes` is idempotent and writes
conditionally: on text where every candidate heading already carries a
truthy explicit `ID:` tag it reports zero changes and returns the input
unchanged, and in general the output differs from the input if and only
if at least one heading line was changed. -/
theorem claim_C4 (lines : List String) :
    ((∀ e ∈ (firstPass lines).2,
        truthy (getS "id" (extract_metadata e.2.2).1) = true) →
      (add_container_id_prefixes lines).changes = 0
      ∧ (add_container_id_prefixes lines).out = lines)
    ∧ (0 < (add_container_id_prefixes lines).changes
        ↔ (add_container_id_prefixes lines).out ≠ lines) := by
  constructor
  · intro hall
    have hc : (spRun lines).changes = 0 :=
      (spFold_explicit (firstPass lines).1 (firstPass lines).2 _ hall).1
    refine ⟨by rw [acip_changes]; exact hc, ?_⟩
    rw [acip_out, hc]
    simp
  constructor
  · intro hpos
    have hch : 0 < (spRun lines).changes := by rwa [acip_changes] at hpos
    rw [acip_out, if_pos hch]
    by_cases hall : ∀ e ∈ (firstPass lines).2,
        truthy (getS "id" (extract_metadata e.2.2).1) = true
    · have h0 : (spRun lines).changes = 0 :=
        (spFold_explicit (firstPass lines).1 (firstPass lines).2 _ hall).1
      exact absurd (h0 ▸ hch) (lt_irrefl 0)
    push_neg at hall
    obtain ⟨e0, he0, hne0⟩ := hall
    have hne0f : truthy (getS "id" (extract_metadata e0.2.2).1) = false := by
      simpa using hne0
    obtain ⟨pre, post, hsplit⟩ := List.append_of_mem he0
    have hpw := fpAux_pairwise lines 0 false [] []
      (fun e he => absurd he (List.not_mem_nil e)) List.Pairwise.nil
    have hpw1 : ∀ e ∈ (firstPass lines).2, e.1 < lines.length := by
      intro e he
      have := hpw.1 e he
      simpa using this
    have hpw2 : List.Pairwise (fun a b : Nat × String × String => a.1 < b.1)
        (firstPass lines).2 := hpw.2
    have hbound : e0.1 < lines.length := hpw1 e0 he0
    have hpost : ∀ e ∈ post, e0.1 < e.1 := by
      rw [hsplit] at hpw2
      exact (List.pairwise_cons.mp (List.pairwise_append.mp hpw2).2.1).1
    have hrun : spRun lines = post.foldl (spStep (firstPass lines).1)
        (spStep (firstPass lines).1
          (pre.foldl (spStep (firstPass lines).1)
            { changes := 0, dup_map := [], out := lines, rewrites := [] })
          e0) := by
      show (firstPass lines).2.foldl _ _ = _
      rw [hsplit, List.foldl_append, List.foldl_cons]
    intro heq
    have hr1len : (pre.foldl (spStep (firstPass lines).1)
        { changes := 0, dup_map := [], out := lines,
          rewrites := [] }).out.length = lines.length :=
      spFold_out_length (firstPass lines).1 pre _
    obtain ⟨x, hx⟩ : ∃ x, (pre.foldl (spStep (firstPass lines).1)
        { changes := 0, dup_map := [], out := lines,
          rewrites := [] }).out.get? e0.1 = some x := by
      cases hg : (pre.foldl (spStep (firstPass lines).1)
          { changes := 0, dup_map := [], out := lines,
            rewrites := [] }).out.get? e0.1 with
      | some x => exact ⟨x, rfl⟩
      | none =>
        rw [List.get?_eq_none] at hg
        rw [hr1len] at hg
        exact absurd hbound (by omega)
    have hget : (spRun lines).out.get? e0.1
        = some (rewriteLine (uidOf (firstPass lines).1 e0.1 e0.2.1)
            e0.2.2) := by
      rw [hrun, spFold_get_lt (firstPass lines).1 post _ e0.1 hpost,
        (spStep_nexpl (firstPass lines).1 _ e0 hne0f).2.1,
        List.get?_set_eq, hx]
      rfl
    have hspec := fpAux_entries_spec lines 0 false [] [] e0 he0
    rcases hspec with hspec | hspec
    · exact absurd hspec (List.not_mem_nil e0)
    obtain ⟨_, line0, hline0, hhead, _, _⟩ := hspec
    rw [Nat.sub_zero] at hline0
    rw [heq, hline0] at hget
    have hline : line0 = rewriteLine (uidOf (firstPass lines).1 e0.1 e0.2.1)
        e0.2.2 := Option.some.inj hget
    have hline2 : line0 = rewriteLine (uidOf (firstPass lines).1 e0.1 e0.2.1)
        (pyStrip (strDrop line0 3)) := by
      rw [← hhead]
      exact hline
    exact rewriteLine_ne (uidOf (firstPass lines).1 e0.1 e0.2.1) line0
      (congrArg (fun s => pyStrip (strDrop s 3)) hline2)
  · intro hne
    by_contra hch
    rw [acip_changes] at hch
    rw [acip_out, if_neg hch] at hne
    exact hne rfl
/-- Witness for C4 at concrete inputs: a line with an explicit tag is
left alone with zero changes; a line without one is rewritten. -/
theorem claim_C4_witness :
    (add_container_id_prefixes ["## ID:A Box"]).changes = 0
    ∧ (add_container_id_prefixes ["## ID:A Box"]).out = ["## ID:A Box"]
    ∧ (add_container_id_prefixes ["## Box 9"]).out ≠ ["## Box 9"] :=
  ⟨((claim_C4 ["## ID:A Box"]).1 (by decide)).1,
   ((claim_C4 ["## ID:A Box"]).1 (by decide)).2,
   (claim_C4 ["## Box 9"]).2.mp (by decide)⟩

/-!
## Injectivity of the decimal rendering and of the injected ids
-/

/-- Decimal value of a digit string (left fold). -/
def charsVal (cs : List Char) : Nat :=
  cs.foldl (fun a c => 10 * a + (c.toNat - 48)) 0

theorem charsVal_append_digit (xs : List Char) (d : Char) :
    charsVal (xs ++ [d]) = 10 * charsVal xs + (d.toNat - 48) := by
  unfold charsVal
  rw [List.foldl_append]
  rfl

theorem digitChar_toNat (d : Nat) (h : d < 10) :
    (digitChar d).toNat = 48 + d := by
  interval_cases d <;> decide

theorem natToCharsF_val :
    ∀ (fuel n : Nat), n < 10 ^ (fuel + 1) →
      charsVal (natToCharsF fuel n) = n := by
  intro fuel
  induction fuel with
  | zero =>
    intro n hn
    have hn10 : n < 10 := by simpa using hn
    show charsVal [digitChar (n % 10)] = n
    rw [Nat.mod_eq_of_lt hn10]
    have hc : charsVal [digitChar n] = 10 * 0 + ((digitChar n).toNat - 48) :=
      rfl
    rw [hc, digitChar_toNat n hn10]
    omega
  | succ fuel ih =>
    intro n hn
    show charsVal (if n < 10 then [digitChar n]
      else natToCharsF fuel (n / 10) ++ [digitChar (n % 10)]) = n
    split_ifs with h10
    · have hc : charsVal [digitChar n] = 10 * 0 + ((digitChar n).toNat - 48) :=
        rfl
      rw [hc, digitChar_toNat n h10]
      omega
    · have hd : n / 10 < 10 ^ (fuel + 1) := by
        rw [Nat.div_lt_iff_lt_mul (by norm_num : (0 : Nat) < 10)]
        calc n < 10 ^ (fuel + 1 + 1) := hn
          _ = 10 ^ (fuel + 1) * 10 := by rw [pow_succ]
      rw [charsVal_append_digit, ih (n / 10) hd,
        digitChar_toNat (n % 10) (Nat.mod_lt n (by norm_num))]
      omega

theorem natToStr_inj (n m : Nat) (h : natToStr n = natToStr m) : n = m := by
  have hd : natToChars n = natToChars m := congrArg String.data h
  have h1 : charsVal (natToChars n) = n :=
    natToCharsF_val n n (lt_of_lt_of_le (Nat.lt_pow_self (by norm_num) n)
      (Nat.pow_le_pow_right (by norm_num) (Nat.le_succ n)))
  have h2 : charsVal (natToChars m) = m :=
    natToCharsF_val m m (lt_of_lt_of_le (Nat.lt_pow_self (by norm_num) m)
      (Nat.pow_le_pow_right (by norm_num) (Nat.le_succ m)))
  rw [← h1, ← h2, hd]

theorem get_idxOf {α : Type} [DecidableEq α] (a : α) :
    ∀ l : List α, a ∈ l → l.get? (idxOf a l) = some a := by
  intro l
  induction l with
  | nil => intro h; exact absurd h (List.not_mem_nil a)
  | cons b t ih =>
    intro h
    unfold idxOf
    split_ifs with hb
    · rw [hb]
      rfl
    · have hat : a ∈ t := by
        rcases List.mem_cons.mp h with h1 | h1
        · exact absurd h1.symm hb
        · exact h1
      rw [List.get?_cons_succ]
      exact ih hat

theorem one_lt_length_of_mem_ne {α : Type} (x y : α) (l : List α)
    (hx : x ∈ l) (hy : y ∈ l) (hxy : x ≠ y) : 1 < l.length := by
  cases l with
  | nil => exact absurd hx (List.not_mem_nil x)
  | cons a t =>
    cases t with
    | nil =>
      have h1 : x = a := by simpa using hx
      have h2 : y = a := by simpa using hy
      exact absurd (h1.trans h2.symm) hxy
    | cons b u => simp

/-- Splitting at the first hyphen is unambiguous when neither prefix
contains one. -/
theorem hyphen_split :
    ∀ (a b x y : List Char), ('-' : Char) ∉ a → ('-' : Char) ∉ b →
      a ++ '-' :: x = b ++ '-' :: y →
      a = b ∧ x = y := by
  intro a
  induction a with
  | nil =>
    intro b x y _ hb h
    cases b with
    | nil => exact ⟨rfl, by simpa using h⟩
    | cons c bt =>
      exfalso
      apply hb
      have hc := (List.cons.inj h).1
      rw [← hc]
      exact List.mem_cons_self _ _
  | cons c at2 ih =>
    intro b x y ha hb h
    cases b with
    | nil =>
      exfalso
      apply ha
      have hc := (List.cons.inj h).1
      rw [hc]
      exact List.mem_cons_self _ _
    | cons d bt =>
      obtain ⟨hcd, ht⟩ := List.cons.inj h
      obtain ⟨h2, h3⟩ := ih bt x y
        (fun hm => ha (List.mem_cons_of_mem c hm))
        (fun hm => hb (List.mem_cons_of_mem d hm)) ht
      exact ⟨by rw [hcd, h2], h3⟩

theorem strCat_right_inj (p s1 s2 : String) (h : p ++ s1 = p ++ s2) :
    s1 = s2 := by
  have hd := congrArg String.data h
  rw [data_append, data_append] at hd
  exact strEq_of_data (List.append_cancel_left hd)

theorem uidOf_eq (ids : List (String × List Nat)) (i : Nat) (cid : String) :
    uidOf ids i cid
      = if 1 < ((alLookup cid ids).getD []).length
        then cid ++ "-" ++ natToStr (idxOf i ((alLookup cid ids).getD []) + 1)
        else cid := rfl

theorem pairwise_lt_index_inj {l : List (Nat × String × String)}
    (h : List.Pairwise (fun a b : Nat × String × String => a.1 < b.1) l) :
    ∀ a ∈ l, ∀ b ∈ l, a.1 = b.1 → a = b := by
  induction l with
  | nil => intro a ha; exact absurd ha (List.not_mem_nil a)
  | cons x t ih =>
    obtain ⟨hx, ht⟩ := List.pairwise_cons.mp h
    intro a ha b hb hab
    rcases List.mem_cons.mp ha with ha1 | ha1 <;>
      rcases List.mem_cons.mp hb with hb1 | hb1
    · rw [ha1, hb1]
    · exfalso
      have := hx b hb1
      rw [← ha1, hab] at this
      exact lt_irrefl _ this
    · exfalso
      have := hx a ha1
      rw [← hb1, ← hab] at this
      exact lt_irrefl _ this
    · exact ih ht a ha1 b hb1 hab

/-- The second pass leaves every line untouched whose index is not the
index of a non-explicit entry. -/
theorem spFold_get_untouched (ids : List (String × List Nat)) :
    ∀ (es : List (Nat × String × String)) (r : DedupRes) (i : Nat),
      (∀ e ∈ es,
        truthy (getS "id" (extract_metadata e.2.2).1) = false → e.1 ≠ i) →
      (es.foldl (spStep ids) r).out.get? i = r.out.get? i := by
  intro es
  induction es with
  | nil => intro r i _; rfl
  | cons e rest ih =>
    intro r i hne
    rw [List.foldl_cons]
    rw [ih (spStep ids r e) i (fun x hx => hne x (List.mem_cons_of_mem e hx))]
    cases h : truthy (getS "id" (extract_metadata e.2.2).1) with
    | false =>
      rw [(spStep_nexpl ids r e h).2.1]
      exact List.get?_set_ne _ _ (hne e (List.mem_cons_self e rest) h)
    | true => rw [(spStep_expl ids r e h).2.1]

/-- The tentative id of a non-explicit collected entry is nonempty and
all-alphanumeric. -/
theorem entry_cid_alnum (lines : List String) (e : Nat × String × String)
    (he : e ∈ (firstPass lines).2)
    (hne : truthy (getS "id" (extract_metadata e.2.2).1) = false) :
    e.2.1.data ≠ [] ∧ ∀ c ∈ e.2.1.data, c.isAlphanum = true := by
  have hspec := fpAux_entries_spec lines 0 false [] [] e he
  rcases hspec with h | h
  · exact absurd h (List.not_mem_nil e)
  obtain ⟨_, line, _, _, hcand, _⟩ := h
  unfold candId at hcand
  rw [if_neg (by simp [hne])] at hcand
  exact tentativeId_chars e.2.2 e.2.1 hcand

/-- `container_ids` after the first pass maps each tentative id to the
indices of its entries, in order. -/
theorem firstPass_lookup (lines : List String) (cid : String) :
    (alLookup cid (firstPass lines).1).getD []
      = ((firstPass lines).2.filter (fun e => e.2.1 = cid)).map
          (fun e => e.1) :=
  fpAux_ids lines 0 false [] [] (fun _ => rfl) cid

/-- Two distinct non-explicit entries receive distinct injected ids. -/
theorem uid_inj (lines : List String) (a b : Nat × String × String)
    (ha : a ∈ (firstPass lines).2) (hb : b ∈ (firstPass lines).2)
    (hab : a.1 < b.1)
    (hfa : truthy (getS "id" (extract_metadata a.2.2).1) = false)
    (hfb : truthy (getS "id" (extract_metadata b.2.2).1) = false) :
    uidOf (firstPass lines).1 a.1 a.2.1
      ≠ uidOf (firstPass lines).1 b.1 b.2.1 := by
  obtain ⟨hAne, hA⟩ := entry_cid_alnum lines a ha hfa
  obtain ⟨hBne, hB⟩ := entry_cid_alnum lines b hb hfb
  intro heq
  rw [uidOf_eq, uidOf_eq] at heq
  by_cases hcc : a.2.1 = b.2.1
  · rw [← hcc] at heq
    have hga : a.1 ∈ (alLookup a.2.1 (firstPass lines).1).getD [] := by
      rw [firstPass_lookup]
      exact List.mem_map.mpr ⟨a, List.mem_filter.mpr ⟨ha, by simp⟩, rfl⟩
    have hgb : b.1 ∈ (alLookup a.2.1 (firstPass lines).1).getD [] := by
      rw [firstPass_lookup]
      exact List.mem_map.mpr ⟨b, List.mem_filter.mpr ⟨hb, by simp [hcc]⟩, rfl⟩
    have hlen : 1 < ((alLookup a.2.1 (firstPass lines).1).getD []).length :=
      one_lt_length_of_mem_ne a.1 b.1 _ hga hgb (Nat.ne_of_lt hab)
    rw [if_pos hlen, if_pos hlen] at heq
    have hs := strCat_right_inj _ _ _ heq
    have hidx := Nat.succ_injective (natToStr_inj _ _ hs)
    have h1 := get_idxOf a.1 _ hga
    have h2 := get_idxOf b.1 _ hgb
    rw [hidx] at h1
    rw [h1] at h2
    exact Nat.ne_of_lt hab (Option.some.inj h2)
  · have hAh : ('-' : Char) ∉ a.2.1.data :=
      fun hm => isAlphanum_ne_hyphen (hA _ hm) rfl
    have hBh : ('-' : Char) ∉ b.2.1.data :=
      fun hm => isAlphanum_ne_hyphen (hB _ hm) rfl
    have hdash : ("-" : String).data = ['-'] := rfl
    split_ifs at heq with h1 h2 h2
    · have hdl := congrArg String.data heq
      rw [data_append, data_append, data_append, data_append, hdash] at hdl
      rw [List.append_assoc, List.append_assoc, List.singleton_append,
        List.singleton_append] at hdl
      exact hcc (strEq_of_data
        (hyphen_split _ _ _ _ hAh hBh hdl).1)
    · apply hBh
      have hdl := congrArg String.data heq
      rw [data_append, data_append, hdash] at hdl
      rw [← hdl]
      simp
    · apply hAh
      have hdl := congrArg String.data heq
      rw [data_append, data_append, hdash] at hdl
      rw [hdl]
      simp
    · exact hcc heq

/-- C3 (amended): the headings actually rewritten by
`add_container_id_prefixes` receive pairwise-distinct injected ids, and
a collected heading that already carries a truthy explicit `ID:` tag is
left unchanged. -/
theorem claim_C3_amended (lines : List String) :
    ((add_container_id_prefixes lines).rewrites.map Prod.snd).Nodup
    ∧ ∀ e ∈ (firstPass lines).2,
        truthy (getS "id" (extract_metadata e.2.2).1) = true →
        (add_container_id_prefixes lines).out.get? e.1 = lines.get? e.1 := by
  have hpw := fpAux_pairwise lines 0 false [] []
    (fun e he => absurd he (List.not_mem_nil e)) List.Pairwise.nil
  have hpw2 : List.Pairwise (fun a b : Nat × String × String => a.1 < b.1)
      (firstPass lines).2 := hpw.2
  constructor
  · rw [acip_rewrites]
    have hrw : (spRun lines).rewrites
        = (firstPass lines).2.filterMap (fun e =>
            if truthy (getS "id" (extract_metadata e.2.2).1) = true then none
            else some (e.1, uidOf (firstPass lines).1 e.1 e.2.1)) := by
      have h := spFold_rewrites (firstPass lines).1 (firstPass lines).2
        { changes := 0, dup_map := [], out := lines, rewrites := [] }
      simpa using h
    rw [hrw]
    refine List.pairwise_map.mpr ?_
    have hstrong : List.Pairwise (fun a b : Nat × String × String =>
        a ∈ (firstPass lines).2 ∧ b ∈ (firstPass lines).2 ∧ a.1 < b.1)
        (firstPass lines).2 :=
      List.Pairwise.imp_of_mem (fun hma hmb hr => ⟨hma, hmb, hr⟩) hpw2
    refine List.Pairwise.filterMap _ ?_ hstrong
    intro a a2 hr x hx x2 hx2
    by_cases hta : truthy (getS "id" (extract_metadata a.2.2).1) = true
    · rw [if_pos hta] at hx
      exact absurd hx (by simp)
    rw [if_neg hta] at hx
    by_cases htb : truthy (getS "id" (extract_metadata a2.2.2).1) = true
    · rw [if_pos htb] at hx2
      exact absurd hx2 (by simp)
    rw [if_neg htb] at hx2
    have hfa : truthy (getS "id" (extract_metadata a.2.2).1) = false := by
      simpa using hta
    have hfb : truthy (getS "id" (extract_metadata a2.2.2).1) = false := by
      simpa using htb
    have hxe : x = (a.1, uidOf (firstPass lines).1 a.1 a.2.1) := by
      simpa using hx.symm
    have hxe2 : x2 = (a2.1, uidOf (firstPass lines).1 a2.1 a2.2.1) := by
      simpa using hx2.symm
    rw [hxe, hxe2]
    exact uid_inj lines a a2 hr.1 hr.2.1 hr.2.2 hfa hfb
  · intro e he hex
    rw [acip_out]
    split_ifs with hch
    · refine spFold_get_untouched (firstPass lines).1 (firstPass lines).2
        { changes := 0, dup_map := [], out := lines, rewrites := [] } e.1 ?_
      intro e2 he2 hf2 heq12
      have he2e : e2 = e := pairwise_lt_index_inj hpw2 e2 he2 e he heq12
      rw [he2e, hex] at hf2
      exact Bool.noConfusion hf2
    · rfl

/-- Witness for the amended C3 on a document with two non-explicit
headings sharing a tentative id and one explicit heading. -/
theorem claim_C3_amended_witness :
    ((add_container_id_prefixes
        ["## Box 9", "## ID:A Crate", "## Box 9"]).rewrites.map
      Prod.snd).Nodup
    ∧ (add_container_id_prefixes
        ["## Box 9", "## ID:A Crate", "## Box 9"]).out.get? 1
      = some "## ID:A Crate" := by
  constructor
  · exact (claim_C3_amended ["## Box 9", "## ID:A Crate", "## Box 9"]).1
  · have h := (claim_C3_amended ["## Box 9", "## ID:A Crate", "## Box 9"]).2
      (1, "A", "ID:A Crate") (by decide) (by decide)
    rw [h]
    rfl

end Inventory
